import Mathlib

/-!
Shallow embedding of the NFO dashboard backend market-data pipeline
(instrument universe resolver, batch planner, ATM selector, quote store,
acquisition loop) together with theorems settling the specification claims.

Source files embedded:
- src/src/token_manager.py          (resolver: futures / options / equity cohorts)
- src/src/db_manager.py             (token store replacement, quote table schema)
- src/src/realtime_market_data_manager.py (batch planner, ATM selector, quote upsert)
- src/scripts/realtime_market_monitor.py  (acquisition loop sleep and shutdown flag)

Machine reals (pandas floats) are modelled as exact rationals; database rows
as Lean structures; SQL statements as pure state transitions on row lists;
exceptions as Option results.
-/

/-! ## Batch planner, from realtime_market_data_manager.batch_tokens -/

/-- A provider request batch: exchange segment mapped to its token list.
Python dicts preserve insertion order, so an association list is the model. -/
abbrev Batch := List (String × List String)

/-- Fuel-indexed worker for the chunking slice loop.  The fuel argument only
makes the recursion structural; it is always called with fuel = length. -/
def chunkGo (n : Nat) : Nat → List α → List (List α)
  | 0, _ => []
  | _ + 1, [] => []
  | fuel + 1, a :: l => ((a :: l).take n) :: chunkGo n fuel ((a :: l).drop n)

/-- Model of the Python slice loop
tokens[i:i+max] for i in range(0, len(tokens), max):
split a list into consecutive chunks of size at most n. -/
def chunkList (n : Nat) (l : List α) : List (List α) :=
  if n = 0 then [] else chunkGo n l.length l

/-- Total token count of a batch, summed over all its exchange segments. -/
def batchCount (b : Batch) : Nat := (b.map (fun p => p.2.length)).sum

/-- Model of the dict mutation: if exchange not in current_batch, create the
entry, then current_batch[exchange].extend(token_batch). -/
def extendBatch (b : Batch) (e : String) (c : List String) : Batch :=
  match b with
  | [] => [(e, c)]
  | (f, ts) :: rest => if f = e then (f, ts ++ c) :: rest else (f, ts) :: extendBatch rest e c

/-- Loop state of batch_tokens: the finished batches, the batch under
construction, and its running token count. -/
structure BatchState where
  batches : List Batch
  current : Batch
  count : Nat

/-- One iteration of the inner loop of batch_tokens for a single chunk of
tokens belonging to exchange e. -/
def addChunk (maxT : Nat) (s : BatchState) (e : String) (c : List String) : BatchState :=
  if s.count + c.length ≤ maxT then
    { s with current := extendBatch s.current e c, count := s.count + c.length }
  else
    { batches := if s.current.isEmpty then s.batches else s.batches ++ [s.current],
      current := [(e, c)], count := c.length }

/-- The list of batches already emitted by a state, including the batch under
construction when it is non-empty (the final flush of batch_tokens). -/
def emittedBatches (s : BatchState) : List Batch :=
  if s.current.isEmpty then s.batches else s.batches ++ [s.current]

/-- Model of RealtimeMarketDataManager.batch_tokens: greedily pack the
exchange-token map into batches whose total size respects maxT. -/
def batch_tokens (maxT : Nat) (exchange_tokens : List (String × List String)) : List Batch :=
  emittedBatches (exchange_tokens.foldl
    (fun s p => (chunkList maxT p.2).foldl (fun s2 c => addChunk maxT s2 p.1 c) s)
    { batches := [], current := [], count := 0 })

/-- Tokens recorded in a batch (or in the input map) for exchange e,
in stored order. -/
def tokensIn (b : List (String × List String)) (e : String) : List String :=
  ((b.filter (fun p => p.1 = e)).map (fun p => p.2)).flatten

/-- All tokens of a batch in stored order, across exchanges. -/
def allTokens (b : Batch) : List String := (b.map (fun p => p.2)).flatten

/-- Flattening of the nested loops of batch_tokens into a single sequence of
(exchange, chunk) pairs, processed left to right. -/
def pairsOf (maxT : Nat) (et : List (String × List String)) : List (String × List String) :=
  et.flatMap (fun p => (chunkList maxT p.2).map (fun c => (p.1, c)))

/-- Invariant of the batch_tokens loop state: the running count caches the
size of the batch under construction and respects the limit, the batch under
construction is non-trivial when non-empty and holds each exchange at most
once, and every finished batch is non-empty and within the limit. -/
def BatchInv (maxT : Nat) (s : BatchState) : Prop :=
  s.count = batchCount s.current ∧
  s.count ≤ maxT ∧
  (s.current ≠ [] → 1 ≤ s.count) ∧
  (s.current.map (fun p => p.1)).Nodup ∧
  ∀ b ∈ s.batches, batchCount b ≤ maxT ∧ 1 ≤ batchCount b

/-! ## Instrument universe resolver, from token_manager.py

The configuration file config/config.yaml is not part of the repository
snapshot, so the constants below are modelled from the spec: instrument type
and exchange segment selectors for the derivatives and cash segments, and the
stored token-type tags.  The claims do not depend on their literal values. -/

/-- Modelled from the spec: instrument type selector for stock futures
(config instrument_types.futures_stock). -/
def futuresType : String := "FUTSTK"

/-- Modelled from the spec: instrument type selector for stock options
(config instrument_types.options_stock). -/
def optionsType : String := "OPTSTK"

/-- Modelled from the spec: derivatives exchange segment (config
exchange_segments.nfo). -/
def nfoSegment : String := "NFO"

/-- Modelled from the spec: cash equity exchange segment (config
exchange_segments.nse). -/
def nseSegment : String := "NSE"

/-- Modelled from the spec: stored token type tag for futures rows. -/
def tokenTypeFutures : String := "FUTURES"

/-- Modelled from the spec: stored token type tag for options rows. -/
def tokenTypeOptions : String := "OPTIONS"

/-- Modelled from the spec: stored token type tag for equity rows. -/
def tokenTypeEquity : String := "EQUITY"

/-- A raw instrument record of the provider catalog (one row of tokens_df).
Numeric columns are modelled as exact rationals; the expiry is the raw
provider string, parsed later. -/
structure RawRecord where
  token : String
  symbol : String
  name : String
  expiry : String
  strike : ℚ
  lotsize : ℚ
  instrumenttype : String
  exch_seg : String
  tick_size : ℚ
deriving DecidableEq

/-- A resolved row of the token_master table (db_manager._init_tables).
Nullable columns are Options; the expiry is the parsed calendar date as an
ordinal day number. -/
structure ResolvedRecord where
  token : String
  symbol : String
  name : String
  expiry : Option Nat
  strike : Option ℚ
  lotsize : ℚ
  instrumenttype : String
  exch_seg : String
  tick_size : ℚ
  token_type : String
  futures_token : Option String
  strike_distance : Option ℚ
deriving DecidableEq

/-- Distinct values of a list in order of first occurrence: the insertion
order of a Python dict or collections.Counter built from the list. -/
def firstOccs [DecidableEq α] (l : List α) : List α :=
  l.foldl (fun acc x => if x ∈ acc then acc else acc ++ [x]) []

/-- Model of collections.Counter(l).most_common(1)[0][0]: the value with the
largest multiplicity; ties are broken by first occurrence (Counter preserves
insertion order and most_common sorts stably). -/
def mostCommon [DecidableEq α] (l : List α) : Option α :=
  match firstOccs l with
  | [] => none
  | x :: xs => some (xs.foldl (fun b y => if l.count b < l.count y then y else b) x)

/-- Round a rational to the nearest integer, halves to even: the semantics of
the Python built-in round on exact values. -/
def roundHalfEven (q : ℚ) : ℤ :=
  if q - ⌊q⌋ < 1/2 then ⌊q⌋
  else if 1/2 < q - ⌊q⌋ then ⌊q⌋ + 1
  else if ⌊q⌋ % 2 = 0 then ⌊q⌋ else ⌊q⌋ + 1

/-- Model of round(x, 2) in the strike difference computation. -/
def round2 (q : ℚ) : ℚ := (roundHalfEven (q * 100) : ℚ) / 100

/-- Stable ascending insertion of one element, the worker of sortAsc. -/
def insertAsc [LinearOrder α] (x : α) : List α → List α
  | [] => [x]
  | y :: ys => if y ≤ x then y :: insertAsc x ys else x :: y :: ys

/-- Model of the Python sorted built-in: stable ascending sort, realised as a
structural insertion sort. -/
def sortAsc [LinearOrder α] (l : List α) : List α :=
  l.foldl (fun acc x => insertAsc x acc) []

/-- Model of sorted(group[strike].unique()): the distinct strikes of a group
in ascending order. -/
def sortedUnique (l : List ℚ) : List ℚ := sortAsc (firstOccs l)

/-- Adjacent differences rounded to two decimals, exactly as computed by
round(unique_strikes[i+1] - unique_strikes[i], 2) in process_options_tokens. -/
def adjDiffs : List ℚ → List ℚ
  | a :: b :: rest => round2 (b - a) :: adjDiffs (b :: rest)
  | _ => []

/-- Written from the claim wording for comparison: plain differences between
adjacent strikes, with no rounding. -/
def specAdjDiffs : List ℚ → List ℚ
  | a :: b :: rest => (b - a) :: specAdjDiffs (b :: rest)
  | _ => []

/-- Strike distance computed for one underlying from its strike list: mode of
the rounded adjacent differences of the sorted distinct strikes, null when
fewer than two distinct strikes exist (token_manager.process_options_tokens). -/
def strikeDistanceOf (strikes : List ℚ) : Option ℚ :=
  let uniq := sortedUnique strikes
  if 1 < uniq.length then mostCommon (adjDiffs uniq) else none

/-- Candidate futures rows: instrumenttype = futures_stock in the derivatives
segment (the filter of process_futures_tokens). -/
def eligibleFutures (catalog : List RawRecord) : List RawRecord :=
  catalog.filter (fun r => r.instrumenttype = futuresType ∧ r.exch_seg = nfoSegment)

/-- Candidate options rows: instrumenttype = options_stock in the derivatives
segment (the filter of process_options_tokens). -/
def eligibleOptions (catalog : List RawRecord) : List RawRecord :=
  catalog.filter (fun r => r.instrumenttype = optionsType ∧ r.exch_seg = nfoSegment)

/-- Model of pd.to_datetime(column, format=...) with the default errors raise:
every row must parse, a single failure raises (caught by the enclosing except,
which returns None).  The provider date format itself lives in the missing
config file, so the parser is a parameter. -/
def parseAll (parse : String → Option Nat) : List RawRecord → Option (List (RawRecord × Nat))
  | [] => some []
  | r :: rest =>
    match parse r.expiry, parseAll parse rest with
    | some d, some ps => some ((r, d) :: ps)
    | _, _ => none

/-- Minimum of a list of day numbers, as pandas Series.min over parsed dates. -/
def minNat : List Nat → Option Nat
  | [] => none
  | d :: rest => some (rest.foldl min d)

/-- Model of TokenManager.process_futures_tokens: filter the catalog to
eligible futures, parse every expiry (any failure is fatal), keep the minimum
expiry cohort, and tag the rows.  None models the Python None return. -/
def process_futures_tokens (parse : String → Option Nat) (catalog : List RawRecord) :
    Option (List ResolvedRecord) :=
  let futures := eligibleFutures catalog
  if futures.isEmpty then none
  else
    match parseAll parse futures with
    | none => none
    | some parsed =>
      match minNat (parsed.map (fun p => p.2)) with
      | none => none
      | some minExpiry =>
        some ((parsed.filter (fun p => p.2 = minExpiry)).map (fun p =>
          { token := p.1.token, symbol := p.1.symbol, name := p.1.name,
            expiry := some p.2, strike := some p.1.strike,
            lotsize := p.1.lotsize, instrumenttype := p.1.instrumenttype,
            exch_seg := p.1.exch_seg, tick_size := p.1.tick_size,
            token_type := tokenTypeFutures, futures_token := none,
            strike_distance := none }))

/-- Strikes (already divided by 100) of the rows of one underlying inside the
current-expiry options cohort: the group of groupby(name). -/
def cohortStrikesFor (cohort : List (RawRecord × Nat)) (n : String) : List ℚ :=
  (cohort.filter (fun p => p.1.name = n)).map (fun p => p.1.strike / 100)

/-- One resolved options row of the current-expiry cohort: strike divided by
100 as the provider scales it, and the strike distance of its underlying
attached via the groupby(name) map. -/
def optionRowOf (cohort : List (RawRecord × Nat)) (p : RawRecord × Nat) : ResolvedRecord :=
  { token := p.1.token, symbol := p.1.symbol, name := p.1.name,
    expiry := some p.2, strike := some (p.1.strike / 100),
    lotsize := p.1.lotsize, instrumenttype := p.1.instrumenttype,
    exch_seg := p.1.exch_seg, tick_size := p.1.tick_size,
    token_type := tokenTypeOptions, futures_token := none,
    strike_distance := strikeDistanceOf (cohortStrikesFor cohort p.1.name) }

/-- Model of TokenManager.process_options_tokens: filter to eligible options,
parse every expiry (any failure fatal), keep the minimum expiry cohort, divide
strikes by 100, and attach the per-underlying strike distance. -/
def process_options_tokens (parse : String → Option Nat) (catalog : List RawRecord) :
    Option (List ResolvedRecord) :=
  let opts := eligibleOptions catalog
  if opts.isEmpty then none
  else
    match parseAll parse opts with
    | none => none
    | some parsed =>
      match minNat (parsed.map (fun p => p.2)) with
      | none => none
      | some minExpiry =>
        let cohort := parsed.filter (fun p => p.2 = minExpiry)
        some (cohort.map (optionRowOf cohort))

/-- Strikes of the rows of one underlying inside a resolved options row set,
as read back from the stored rows. -/
def outStrikesFor (out : List ResolvedRecord) (n : String) : List ℚ :=
  (out.filter (fun o => o.name = n)).map (fun o => o.strike.getD 0)

/-- Model of symbol.str.replace applied with pattern -EQ and empty
replacement: drop every occurrence of the three characters from the symbol. -/
def stripEQChars : List Char → List Char
  | '-' :: 'E' :: 'Q' :: rest => stripEQChars rest
  | c :: rest => c :: stripEQChars rest
  | [] => []

/-- Base name of an equity symbol, as symbol.str.replace(-EQ, empty). -/
def stripEQ (s : String) : String := String.mk (stripEQChars s.data)

/-- Model of TokenManager.process_equity_tokens: derive name-EQ symbols from
the futures names, filter the cash segment of the catalog to those symbols,
tag them EQUITY, link the futures token by name (a dict built row by row, so
the last futures row of a name wins), zero the strike and null the expiry. -/
def process_equity_tokens (catalog : List RawRecord) (futures_df : List ResolvedRecord) :
    Option (List ResolvedRecord) :=
  let equity_symbols := futures_df.map (fun f => f.name ++ "-EQ")
  let eq_rows := catalog.filter (fun r => r.exch_seg = nseSegment ∧ r.symbol ∈ equity_symbols)
  if eq_rows.isEmpty then none
  else
    some (eq_rows.map (fun r =>
      { token := r.token, symbol := r.symbol, name := r.name,
        expiry := none, strike := some 0,
        lotsize := r.lotsize, instrumenttype := r.instrumenttype,
        exch_seg := r.exch_seg, tick_size := r.tick_size,
        token_type := tokenTypeEquity,
        futures_token :=
          (futures_df.reverse.find? (fun f => f.name = stripEQ r.symbol)).map (fun f => f.token),
        strike_distance := none }))

/-- Model of DBManager.store_tokens on the token_master table state: the
DELETE statement commits on its own (DuckDB auto-commit), then the bulk INSERT
either succeeds wholesale or fails wholesale.  The insert fails exactly when
the fresh rows violate the PRIMARY KEY (token) of token_master, leaving the
already-emptied table empty and returning False through the except branch. -/
def store_tokens (store : List ResolvedRecord) (tokens_data : List ResolvedRecord) :
    List ResolvedRecord × Bool :=
  if (tokens_data.map (fun r => r.token)).Nodup then (tokens_data, true) else ([], false)

/-- The three-cohort resolution chain of process_and_store_tokens, without the
persistence step. -/
def resolveTokens (parse : String → Option Nat) (catalog : List RawRecord) :
    Option (List ResolvedRecord) :=
  match process_futures_tokens parse catalog with
  | none => none
  | some fut =>
    match process_options_tokens parse catalog with
    | none => none
    | some opt =>
      match process_equity_tokens catalog fut with
      | none => none
      | some eqs => some (fut ++ opt ++ eqs)

/-- Model of TokenManager.process_and_store_tokens acting on the token store
state.  fetched is the downloaded catalog, none when fetch_tokens failed; the
needs_token_refresh shortcut (wall-clock dependent, store untouched) is
outside the model.  Returns the new store contents and the boolean result. -/
def process_and_store_tokens (parse : String → Option Nat)
    (fetched : Option (List RawRecord)) (store : List ResolvedRecord) :
    List ResolvedRecord × Bool :=
  match fetched with
  | none => (store, false)
  | some catalog =>
    match process_futures_tokens parse catalog with
    | none => (store, false)
    | some fut =>
      match process_options_tokens parse catalog with
      | none => (store, false)
      | some opt =>
        match process_equity_tokens catalog fut with
        | none => (store, false)
        | some eqs => store_tokens store (fut ++ opt ++ eqs)

/-! ## ATM selector, from realtime_market_data_manager.get_atm_options_tokens -/

/-- Option type extracted by the regular expression (CE|PE)$ on the trading
symbol, realised as a suffix match on the character list; none models the NaN
group dropped by groupby. -/
def optionTypeOf (symbol : String) : Option String :=
  if List.isSuffixOf ['C', 'E'] symbol.data then some "CE"
  else if List.isSuffixOf ['P', 'E'] symbol.data then some "PE"
  else none

/-- Lookup in the futures price dict. -/
def lookupPrice (m : List (String × ℚ)) (n : String) : Option ℚ :=
  (m.find? (fun p => p.1 = n)).map (fun p => p.2)

/-- Dict assignment futures_prices[name] = ltp: overwrite in place or append. -/
def setPrice (m : List (String × ℚ)) (n : String) (v : ℚ) : List (String × ℚ) :=
  match m with
  | [] => [(n, v)]
  | (k, w) :: rest => if k = n then (k, v) :: rest else (k, w) :: setPrice rest n v

/-- Build the underlying-name to futures-price dict: for each fetched futures
record, query token_master for the name of its token (first matching FUTURES
row) and assign its last traded price. -/
def buildFuturesPrices (db : List ResolvedRecord) (futures_data : List (String × ℚ)) :
    List (String × ℚ) :=
  futures_data.foldl (fun m fd =>
    match (db.find? (fun r => r.token = fd.1 ∧ r.token_type = tokenTypeFutures)) with
    | some r => setPrice m r.name fd.2
    | none => m) []

/-- Model of get_options_tokens: the OPTIONS rows of token_master. -/
def optionsOf (db : List ResolvedRecord) : List ResolvedRecord :=
  db.filter (fun r => r.token_type = tokenTypeOptions)

/-- Distance of an option row to the reference futures price. -/
def atmDist (p : ℚ) (r : ResolvedRecord) : ℚ := |r.strike.getD 0 - p|

/-- Model of Series.idxmin followed by loc: the first row attaining the
minimum distance, skipping rows whose strike is NaN; none models the exception
idxmin raises when every distance is NaN. -/
def pickClosest (rows : List ResolvedRecord) (p : ℚ) : Option ResolvedRecord :=
  match rows.filter (fun r => r.strike.isSome) with
  | [] => none
  | r :: rest => some (rest.foldl (fun b y => if atmDist p y < atmDist p b then y else b) r)

/-- The rows of one underlying and one option type inside the options
universe: the group of the nested groupby(option_type). -/
def typeGroup (opts : List ResolvedRecord) (n t : String) : List ResolvedRecord :=
  opts.filter (fun r => r.name = n ∧ optionTypeOf r.symbol = some t)

/-- Option types present for an underlying, in the sorted order groupby
iterates them; the NaN group (symbols matching neither suffix) is dropped. -/
def typesPresent (opts : List ResolvedRecord) (n : String) : List String :=
  ["CE", "PE"].filter (fun t => ¬ (typeGroup opts n t).isEmpty)

/-- Underlying names of the options universe in the sorted order of
groupby(name). -/
def sortedNames (opts : List ResolvedRecord) : List String :=
  sortAsc (firstOccs (opts.map (fun r => r.name)))

/-- Closest-strike selection for each option type of one underlying in turn;
none propagates the idxmin exception. -/
def pickForTypes (opts : List ResolvedRecord) (n : String) (p : ℚ) :
    List String → Option (List ResolvedRecord)
  | [] => some []
  | t :: ts =>
    match pickClosest (typeGroup opts n t) p, pickForTypes opts n p ts with
    | some r, some rs => some (r :: rs)
    | _, _ => none

/-- Exact-ATM selection for one underlying: the closest strike of each option
type present. -/
def exactForName (opts : List ResolvedRecord) (n : String) (p : ℚ) :
    Option (List ResolvedRecord) :=
  pickForTypes opts n p (typesPresent opts n)

/-- The outer loop of the exact mode over the sorted underlyings that have a
futures price, concatenating the per-underlying selections. -/
def exactRows (opts : List ResolvedRecord) :
    List (String × ℚ) → Option (List ResolvedRecord)
  | [] => some []
  | q :: qs =>
    match exactForName opts q.1 q.2, exactRows opts qs with
    | some rs, some rest => some (rs ++ rest)
    | _, _ => none

/-- Modelled fallback table of the source: hardcoded strike distances for the
known index names, 5 for stocks. -/
def fallbackStrikeDistance (n : String) : ℚ :=
  if n = "NIFTY" then 50 else if n = "BANKNIFTY" then 100 else 5

/-- Model of the is_near_atm predicate of the buffered mode: keep a row when
its strike lies within strike_buffer strike distances of the futures price,
using the fallback when strike_distance is missing or zero. -/
def isNearATM (fp : List (String × ℚ)) (buffer : ℚ) (r : ResolvedRecord) : Bool :=
  match lookupPrice fp r.name with
  | none => false
  | some p =>
    match r.strike with
    | none => false
    | some s =>
      let sd := match r.strike_distance with
        | none => fallbackStrikeDistance r.name
        | some d => if d = 0 then fallbackStrikeDistance r.name else d
      decide (|p - s| / sd ≤ buffer)

/-- Model of RealtimeMarketDataManager.get_atm_options_tokens.  The result is
none when the exact mode hits the idxmin exception; every early return of the
source yields an empty row list. -/
def get_atm_options_tokens (db : List ResolvedRecord) (futures_data : List (String × ℚ))
    (strike_buffer : ℚ) (exact_atm_only : Bool) : Option (List ResolvedRecord) :=
  if futures_data.isEmpty then some []
  else if (optionsOf db).isEmpty then some []
  else if (buildFuturesPrices db futures_data).isEmpty then some []
  else if exact_atm_only then
    exactRows (optionsOf db) ((sortedNames (optionsOf db)).filterMap
      (fun n => (lookupPrice (buildFuturesPrices db futures_data) n).map (fun p => (n, p))))
  else
    some ((optionsOf db).filter
      (fun r => isNearATM (buildFuturesPrices db futures_data) strike_buffer r))

/-- Number of selected rows belonging to one underlying. -/
def countName (rows : List ResolvedRecord) (n : String) : Nat :=
  (rows.filter (fun r => r.name = n)).length

/-! ## Quote store, from realtime_market_data_manager.store_realtime_market_data
and the realtime_market_data table of db_manager._init_tables -/

/-- A fetched quote record as delivered by the provider API, after the
timestamp parsing and depth serialization done in the storage loop. -/
structure QuoteRecord where
  exchange : String
  tradingSymbol : String
  symbolToken : String
  ltp : ℚ
  openPrice : ℚ
  high : ℚ
  low : ℚ
  closePrice : ℚ
  lastTradeQty : ℤ
  exchFeedTime : Option Nat
  exchTradeTime : Option Nat
  netChange : ℚ
  percentChange : ℚ
  avgPrice : ℚ
  tradeVolume : ℤ
  opnInterest : ℤ
  lowerCircuit : ℚ
  upperCircuit : ℚ
  totBuyQuan : ℤ
  totSellQuan : ℤ
  week52Low : ℚ
  week52High : ℚ
  depthJson : String
deriving DecidableEq

/-- A row of the realtime_market_data table; the timestamp column takes the
CURRENT_TIMESTAMP default at insert time and is part of the primary key. -/
structure QuoteRow where
  exchange : String
  trading_symbol : String
  symbol_token : String
  ltp : ℚ
  openPrice : ℚ
  high : ℚ
  low : ℚ
  closePrice : ℚ
  last_trade_qty : ℤ
  exch_feed_time : Option Nat
  exch_trade_time : Option Nat
  net_change : ℚ
  percent_change : ℚ
  avg_price : ℚ
  trade_volume : ℤ
  opn_interest : ℤ
  lower_circuit : ℚ
  upper_circuit : ℚ
  tot_buy_quan : ℤ
  tot_sell_quan : ℤ
  week_low_52 : ℚ
  week_high_52 : ℚ
  depth_json : String
  timestamp : Nat
deriving DecidableEq

/-- The primary key of a quote row. -/
def quoteKey (w : QuoteRow) : String × Nat := (w.symbol_token, w.timestamp)

/-- Fresh row built by the INSERT column list, with the default timestamp. -/
def insertQuoteRow (r : QuoteRecord) (ts : Nat) : QuoteRow :=
  { exchange := r.exchange, trading_symbol := r.tradingSymbol,
    symbol_token := r.symbolToken, ltp := r.ltp, openPrice := r.openPrice,
    high := r.high, low := r.low, closePrice := r.closePrice,
    last_trade_qty := r.lastTradeQty, exch_feed_time := r.exchFeedTime,
    exch_trade_time := r.exchTradeTime, net_change := r.netChange,
    percent_change := r.percentChange, avg_price := r.avgPrice,
    trade_volume := r.tradeVolume, opn_interest := r.opnInterest,
    lower_circuit := r.lowerCircuit, upper_circuit := r.upperCircuit,
    tot_buy_quan := r.totBuyQuan, tot_sell_quan := r.totSellQuan,
    week_low_52 := r.week52Low, week_high_52 := r.week52High,
    depth_json := r.depthJson, timestamp := ts }

/-- The DO UPDATE SET clause: only the listed value columns are overwritten
from the excluded row, the rest keep the stored values. -/
def updateQuoteRow (w : QuoteRow) (r : QuoteRecord) : QuoteRow :=
  { w with
    ltp := r.ltp, openPrice := r.openPrice, high := r.high, low := r.low,
    closePrice := r.closePrice, last_trade_qty := r.lastTradeQty,
    net_change := r.netChange, percent_change := r.percentChange,
    avg_price := r.avgPrice, trade_volume := r.tradeVolume,
    opn_interest := r.opnInterest, depth_json := r.depthJson }

/-- Model of one INSERT ... ON CONFLICT (symbol_token, timestamp) DO UPDATE
statement: ts is the CURRENT_TIMESTAMP default assigned to the new row. -/
def upsertQuote (st : List QuoteRow) (r : QuoteRecord) (ts : Nat) : List QuoteRow :=
  if st.any (fun w => quoteKey w = (r.symbolToken, ts)) then
    st.map (fun w => if quoteKey w = (r.symbolToken, ts) then updateQuoteRow w r else w)
  else
    st ++ [insertQuoteRow r ts]

/-- Model of RealtimeMarketDataManager.store_realtime_market_data: upsert each
record in order; an empty batch returns False without touching the store. -/
def store_realtime_market_data (st : List QuoteRow) (data : List QuoteRecord) (ts : Nat) :
    List QuoteRow × Bool :=
  if data.isEmpty then (st, false)
  else (data.foldl (fun s r => upsertQuote s r ts) st, true)

/-! ## Acquisition loop timing and shutdown, from
scripts/realtime_market_monitor.run_monitor and
realtime_market_data_manager.fetch_and_store_realtime_data -/

/-- Seconds slept by the wait loop
for _ in range(refresh_interval): if not running: break; time.sleep(1)
where run i is the value of the global running flag at the i-th check. -/
def sleepLoopAux (run : Nat → Bool) : Nat → Nat → Nat
  | 0, _ => 0
  | fuel + 1, i => if run i then 1 + sleepLoopAux run fuel (i + 1) else 0

/-- Seconds slept between two cycles of run_monitor. -/
def sleepLoop (refresh : Nat) (run : Nat → Bool) : Nat := sleepLoopAux run refresh 0

/-- Sleep performed after a cycle whose measured duration was elapsed.  The
source computes elapsed_time only for the log line; the wait loop runs the
full refresh interval regardless, which this definition mirrors by ignoring
its second argument. -/
def monitorCycleSleep (refresh_interval : Nat) (elapsed : Nat) : Nat :=
  sleepLoop refresh_interval (fun _ => true)

/-- Number of batches fetched by the per-cycle batch loops of
fetch_and_store_realtime_data.  The loop bodies never consult the shutdown
flag, which this definition mirrors by ignoring the flag schedule. -/
def processBatches (batches : List α) (run : Nat → Bool) : Nat :=
  batches.foldl (fun k _ => k + 1) 0

/-! ## Concrete instances used by witnesses and counterexamples -/

/-- A small exchange-token map exercising the batch planner. -/
def demoET : List (String × List String) :=
  [("NSE", ["t1", "t2", "t3"]), ("NFO", ["d1"])]

/-- Expiry parser of the concrete resolver scenarios: exactly the literal E1
parses, to day number 10. -/
def demoParse : String → Option Nat := fun s => if s = "E1" then some 10 else none

/-- A well-formed raw futures row. -/
def demoFutRaw : RawRecord :=
  { token := "F1", symbol := "FOOFUT", name := "FOO", expiry := "E1",
    strike := 50, lotsize := 1, instrumenttype := futuresType,
    exch_seg := nfoSegment, tick_size := 1 }

/-- A raw futures row whose expiry string does not parse. -/
def demoFutRawBad : RawRecord := { demoFutRaw with token := "F2", expiry := "XX" }

/-- A well-formed raw options row (provider strike scaled by 100). -/
def demoOptRaw : RawRecord :=
  { token := "O1", symbol := "FOO100CE", name := "FOO", expiry := "E1",
    strike := 10000, lotsize := 1, instrumenttype := optionsType,
    exch_seg := nfoSegment, tick_size := 1 }

/-- The cash-segment equity row matching the futures underlying. -/
def demoEqRaw : RawRecord :=
  { token := "Q1", symbol := "FOO-EQ", name := "FOO", expiry := "", strike := 0,
    lotsize := 1, instrumenttype := "EQ", exch_seg := nseSegment, tick_size := 1 }

/-- A catalog on which all three cohorts resolve. -/
def demoCatalog : List RawRecord := [demoFutRaw, demoOptRaw, demoEqRaw]

/-- The same catalog with the futures row delivered twice by the provider. -/
def demoCatalogDup : List RawRecord := demoCatalog ++ [demoFutRaw]

/-- A catalog whose futures cohort has one parsable and one unparsable row. -/
def demoBadCatalog : List RawRecord := [demoFutRaw, demoFutRawBad]

/-- The resolved futures row of demoCatalog. -/
def demoFutResolved : ResolvedRecord :=
  { token := "F1", symbol := "FOOFUT", name := "FOO", expiry := some 10,
    strike := some 50, lotsize := 1, instrumenttype := futuresType,
    exch_seg := nfoSegment, tick_size := 1, token_type := tokenTypeFutures,
    futures_token := none, strike_distance := none }

/-- The resolved options row of demoCatalog. -/
def demoOptResolved : ResolvedRecord :=
  { token := "O1", symbol := "FOO100CE", name := "FOO", expiry := some 10,
    strike := some (10000 / 100), lotsize := 1, instrumenttype := optionsType,
    exch_seg := nfoSegment, tick_size := 1, token_type := tokenTypeOptions,
    futures_token := none, strike_distance := none }

/-- The resolved equity row of demoCatalog. -/
def demoEqResolved : ResolvedRecord :=
  { token := "Q1", symbol := "FOO-EQ", name := "FOO", expiry := none,
    strike := some 0, lotsize := 1, instrumenttype := "EQ",
    exch_seg := nseSegment, tick_size := 1, token_type := tokenTypeEquity,
    futures_token := some "F1", strike_distance := none }

/-- The full resolved row set of demoCatalog. -/
def demoResolvedRows : List ResolvedRecord :=
  [demoFutResolved, demoOptResolved, demoEqResolved]

/-- A non-empty previous token store. -/
def demoStore : List ResolvedRecord := [{ demoFutResolved with token := "OLD" }]

/-- Options catalog with four strikes of one underlying for the strike
distance scenario: strikes 100, 150, 200, 260 after the division by 100. -/
def demoC2Catalog : List RawRecord :=
  [{ demoOptRaw with token := "O1", symbol := "BAR100CE", name := "BAR", strike := 10000 },
   { demoOptRaw with token := "O2", symbol := "BAR150CE", name := "BAR", strike := 15000 },
   { demoOptRaw with token := "O3", symbol := "BAR200CE", name := "BAR", strike := 20000 },
   { demoOptRaw with token := "O4", symbol := "BAR260CE", name := "BAR", strike := 26000 }]

/-- One resolved row of demoC2Catalog carrying the expected strike distance
50, the mode of the adjacent differences 50, 50, 60. -/
def demoC2Row : ResolvedRecord :=
  { token := "O1", symbol := "BAR100CE", name := "BAR", expiry := some 10,
    strike := some 100, lotsize := 1, instrumenttype := optionsType,
    exch_seg := nfoSegment, tick_size := 1, token_type := tokenTypeOptions,
    futures_token := none, strike_distance := some 50 }

/-- The full resolved row set of demoC2Catalog. -/
def demoC2Out : List ResolvedRecord :=
  [demoC2Row,
   { demoC2Row with token := "O2", symbol := "BAR150CE", strike := some 150 },
   { demoC2Row with token := "O3", symbol := "BAR200CE", strike := some 200 },
   { demoC2Row with token := "O4", symbol := "BAR260CE", strike := some 260 }]

/-- A resolved futures row for the ATM selection scenario. -/
def demoAtmFut : ResolvedRecord :=
  { demoFutResolved with token := "F9", name := "BAZ", symbol := "BAZFUT" }

/-- The call row of the ATM scenario, strike 100. -/
def demoAtmCE : ResolvedRecord :=
  { token := "A1", symbol := "BAZ100CE", name := "BAZ", expiry := some 10,
    strike := some 100, lotsize := 1, instrumenttype := optionsType,
    exch_seg := nfoSegment, tick_size := 1, token_type := tokenTypeOptions,
    futures_token := none, strike_distance := some 10 }

/-- The put row of the ATM scenario, strike 90. -/
def demoAtmPE : ResolvedRecord :=
  { demoAtmCE with token := "A2", symbol := "BAZ90PE", strike := some 90 }

/-- A token_master state with one futures row and a call and put. -/
def demoAtmDb : List ResolvedRecord := [demoAtmFut, demoAtmCE, demoAtmPE]

/-- Fetched futures data: the futures token trades at 95. -/
def demoAtmFD : List (String × ℚ) := [("F9", 95)]

/-- A concrete fetched quote record exercising the quote store. -/
def demoQuote : QuoteRecord :=
  { exchange := "NSE", tradingSymbol := "FOO-EQ", symbolToken := "Q1", ltp := 10,
    openPrice := 9, high := 11, low := 8, closePrice := 10, lastTradeQty := 5,
    exchFeedTime := some 1, exchTradeTime := some 1, netChange := 1,
    percentChange := 1, avgPrice := 10, tradeVolume := 100, opnInterest := 0,
    lowerCircuit := 5, upperCircuit := 15, totBuyQuan := 10, totSellQuan := 10,
    week52Low := 5, week52High := 20, depthJson := "\x7b\x7d" }

/-! # Theorems

Helper lemmas come first, then one theorem per claim (with witnesses and
counterexamples as appropriate). -/

/-! ## Batch planner lemmas -/

theorem chunkGo_flatten (n : Nat) (hn : 0 < n) (fuel : Nat) (l : List α)
    (hf : l.length ≤ fuel) : (chunkGo n fuel l).flatten = l := by
  induction fuel generalizing l with
  | zero =>
    have hl : l = [] := by
      cases l with
      | nil => rfl
      | cons a l => simp at hf
    subst hl; rfl
  | succ fuel ih =>
    cases l with
    | nil => rfl
    | cons a l =>
      rw [chunkGo]
      simp only [List.flatten_cons]
      rw [ih]
      · exact List.take_append_drop n (a :: l)
      · simp only [List.length_drop, List.length_cons] at *
        omega

theorem chunkList_flatten (n : Nat) (hn : 0 < n) (l : List α) :
    (chunkList n l).flatten = l := by
  rw [chunkList, if_neg (Nat.pos_iff_ne_zero.mp hn)]
  exact chunkGo_flatten n hn l.length l le_rfl

theorem chunkGo_mem (n fuel : Nat) (hn : 0 < n) (l : List α) (c : List α)
    (hc : c ∈ chunkGo n fuel l) : c.length ≤ n ∧ c ≠ [] := by
  induction fuel generalizing l with
  | zero => simp [chunkGo] at hc
  | succ fuel ih =>
    cases l with
    | nil => simp [chunkGo] at hc
    | cons a l =>
      rw [chunkGo] at hc
      rcases List.mem_cons.mp hc with h | h
      · subst h
        refine ⟨by simpa using List.length_take_le n (a :: l), ?_⟩
        simp [List.take_eq_nil_iff]
        omega
      · exact ih _ h

theorem chunkList_mem (n : Nat) (hn : 0 < n) (l : List α) (c : List α)
    (hc : c ∈ chunkList n l) : c.length ≤ n ∧ c ≠ [] := by
  rw [chunkList, if_neg (Nat.pos_iff_ne_zero.mp hn)] at hc
  exact chunkGo_mem n l.length hn l c hc

theorem batchCount_extendBatch (b : Batch) (e : String) (c : List String) :
    batchCount (extendBatch b e c) = batchCount b + c.length := by
  induction b with
  | nil => simp [extendBatch, batchCount]
  | cons p rest ih =>
    obtain ⟨f, ts⟩ := p
    rw [extendBatch]
    by_cases hfe : f = e
    · simp [hfe, batchCount]
      omega
    · simp only [if_neg hfe]
      simp [batchCount] at ih ⊢
      omega

theorem keys_extendBatch (b : Batch) (e : String) (c : List String) :
    (extendBatch b e c).map (fun p => p.1) =
      if e ∈ b.map (fun p => p.1) then b.map (fun p => p.1)
      else b.map (fun p => p.1) ++ [e] := by
  induction b with
  | nil => simp [extendBatch]
  | cons p rest ih =>
    obtain ⟨f, ts⟩ := p
    rw [extendBatch]
    by_cases hfe : f = e
    · simp [hfe]
    · have hne : ¬ e = f := fun h => hfe h.symm
      simp only [if_neg hfe, List.map_cons, ih]
      by_cases hmem : e ∈ rest.map (fun p => p.1) <;>
        simp [hmem, hne]

theorem nodup_keys_extendBatch (b : Batch) (e : String) (c : List String)
    (h : (b.map (fun p => p.1)).Nodup) :
    ((extendBatch b e c).map (fun p => p.1)).Nodup := by
  rw [keys_extendBatch]
  by_cases hmem : e ∈ b.map (fun p => p.1)
  · simpa [hmem] using h
  · simp only [if_neg hmem]
    simpa [List.nodup_append, hmem] using h

theorem tokensIn_cons (f : String) (ts : List String) (rest : Batch) (x : String) :
    tokensIn ((f, ts) :: rest) x = (if f = x then ts else []) ++ tokensIn rest x := by
  by_cases h : f = x <;> simp [tokensIn, List.filter_cons, h]

theorem tokensIn_eq_nil_of_not_mem (rest : Batch) (x : String)
    (hx : x ∉ rest.map (fun p => p.1)) : tokensIn rest x = [] := by
  rw [tokensIn, List.filter_eq_nil_iff.mpr, List.map_nil, List.flatten_nil]
  intro p hp
  simp only [decide_eq_true_eq]
  intro hpx
  exact hx (by simpa [hpx] using List.mem_map_of_mem (fun q => q.1) hp)

theorem tokensIn_extendBatch (b : Batch) (e : String) (c : List String) (x : String)
    (h : (b.map (fun p => p.1)).Nodup) :
    tokensIn (extendBatch b e c) x = tokensIn b x ++ (if e = x then c else []) := by
  induction b with
  | nil =>
    by_cases hex : e = x <;> simp [extendBatch, tokensIn, hex]
  | cons p rest ih =>
    obtain ⟨f, ts⟩ := p
    simp only [List.map_cons, List.nodup_cons] at h
    obtain ⟨hf, hrest⟩ := h
    rw [extendBatch]
    by_cases hfe : f = e
    · subst hfe
      rw [if_pos rfl, tokensIn_cons, tokensIn_cons]
      by_cases hfx : f = x
      · subst hfx
        rw [tokensIn_eq_nil_of_not_mem rest f hf]
        simp
      · simp [hfx]
    · rw [if_neg hfe, tokensIn_cons, tokensIn_cons, ih hrest, List.append_assoc]

theorem allTokens_extendBatch (b : Batch) (e : String) (c : List String) :
    List.Perm (allTokens (extendBatch b e c)) (allTokens b ++ c) := by
  induction b with
  | nil => simp [extendBatch, allTokens]
  | cons p rest ih =>
    obtain ⟨f, ts⟩ := p
    rw [extendBatch]
    by_cases hfe : f = e
    · simp only [if_pos hfe, allTokens, List.map_cons, List.flatten_cons]
      rw [List.append_assoc, List.append_assoc]
      exact List.Perm.append_left ts List.perm_append_comm
    · simp only [if_neg hfe, allTokens, List.map_cons, List.flatten_cons]
      rw [List.append_assoc]
      exact List.Perm.append_left ts ih

theorem extendBatch_ne_nil (b : Batch) (e : String) (c : List String) :
    extendBatch b e c ≠ [] := by
  cases b with
  | nil => simp [extendBatch]
  | cons p rest =>
    obtain ⟨f, ts⟩ := p
    rw [extendBatch]
    by_cases hfe : f = e <;> simp [hfe]

theorem addChunk_keys (maxT : Nat) (s : BatchState) (e : String) (c : List String)
    (h : (s.current.map (fun p => p.1)).Nodup) :
    (((addChunk maxT s e c).current).map (fun p => p.1)).Nodup := by
  rw [addChunk]
  by_cases hle : s.count + c.length ≤ maxT
  · simpa [hle] using nodup_keys_extendBatch s.current e c h
  · simp [hle]

theorem addChunk_inv (maxT : Nat) (s : BatchState) (e : String) (c : List String)
    (hc : c ≠ []) (hcl : c.length ≤ maxT) (h : BatchInv maxT s) :
    BatchInv maxT (addChunk maxT s e c) := by
  obtain ⟨h1, h2, h3, h4, h5⟩ := h
  have hclen : 1 ≤ c.length := List.length_pos.mpr hc
  rw [addChunk]
  by_cases hle : s.count + c.length ≤ maxT
  · rw [if_pos hle]
    refine ⟨?_, hle, ?_, nodup_keys_extendBatch s.current e c h4, h5⟩
    · rw [batchCount_extendBatch, h1]
    · intro _
      show 1 ≤ s.count + c.length
      omega
  · rw [if_neg hle]
    refine ⟨?_, hcl, fun _ => hclen, by simp, ?_⟩
    · simp [batchCount]
    · intro b hb
      by_cases hcur : s.current.isEmpty
      · rw [if_pos hcur] at hb
        exact h5 b hb
      · rw [if_neg hcur] at hb
        rcases List.mem_append.mp hb with hmem | hmem
        · exact h5 b hmem
        · have hbc : b = s.current := by simpa using hmem
          subst hbc
          have hne : s.current ≠ [] := by
            simpa [List.isEmpty_iff] using hcur
          exact ⟨h1 ▸ h2, h1 ▸ h3 hne⟩

theorem addChunk_tokens (maxT : Nat) (s : BatchState) (e : String) (c : List String)
    (x : String) (hk : (s.current.map (fun p => p.1)).Nodup) :
    ((emittedBatches (addChunk maxT s e c)).map (fun b => tokensIn b x)).flatten
      = ((emittedBatches s).map (fun b => tokensIn b x)).flatten
        ++ (if e = x then c else []) := by
  rw [addChunk]
  by_cases hle : s.count + c.length ≤ maxT
  · rw [if_pos hle]
    by_cases hcur : s.current.isEmpty
    · have hnil : s.current = [] := by simpa [List.isEmpty_iff] using hcur
      simp only [emittedBatches, hnil]
      by_cases hex : e = x <;> simp [extendBatch, tokensIn, hex]
    · have hnil : s.current ≠ [] := by simpa [List.isEmpty_iff] using hcur
      simp only [emittedBatches]
      rw [if_neg (by simpa [List.isEmpty_iff] using extendBatch_ne_nil s.current e c),
        if_neg (by simpa [List.isEmpty_iff] using hnil)]
      simp only [List.map_append, List.map_cons, List.map_nil, List.flatten_append,
        List.flatten_cons, List.flatten_nil, List.append_nil]
      rw [tokensIn_extendBatch s.current e c x hk, List.append_assoc]
  · rw [if_neg hle]
    by_cases hcur : s.current.isEmpty
    · have hnil : s.current = [] := by simpa [List.isEmpty_iff] using hcur
      simp only [emittedBatches, hnil]
      by_cases hex : e = x <;> simp [tokensIn, hex]
    · have hnil : s.current ≠ [] := by simpa [List.isEmpty_iff] using hcur
      simp only [emittedBatches, hcur, if_neg hcur]
      simp only [Bool.false_eq_true, if_false, List.isEmpty_cons, List.map_append,
        List.map_cons, List.map_nil, List.flatten_append, List.flatten_cons,
        List.flatten_nil, List.append_nil]
      by_cases hex : e = x <;> simp [tokensIn, hex]

theorem addChunk_allTokens (maxT : Nat) (s : BatchState) (e : String) (c : List String) :
    List.Perm ((emittedBatches (addChunk maxT s e c)).map allTokens).flatten
      (((emittedBatches s).map allTokens).flatten ++ c) := by
  rw [addChunk]
  by_cases hle : s.count + c.length ≤ maxT
  · rw [if_pos hle]
    by_cases hcur : s.current.isEmpty
    · have hnil : s.current = [] := by simpa [List.isEmpty_iff] using hcur
      simp only [emittedBatches, hnil]
      simp [extendBatch, allTokens]
    · have hnil : s.current ≠ [] := by simpa [List.isEmpty_iff] using hcur
      simp only [emittedBatches]
      rw [if_neg (by simpa [List.isEmpty_iff] using extendBatch_ne_nil s.current e c),
        if_neg (by simpa [List.isEmpty_iff] using hnil)]
      simp only [List.map_append, List.map_cons, List.map_nil, List.flatten_append,
        List.flatten_cons, List.flatten_nil, List.append_nil]
      rw [List.append_assoc]
      exact List.Perm.append_left _ (allTokens_extendBatch s.current e c)
  · rw [if_neg hle]
    by_cases hcur : s.current.isEmpty
    · have hnil : s.current = [] := by simpa [List.isEmpty_iff] using hcur
      simp only [emittedBatches, hnil]
      simp [allTokens]
    · simp only [emittedBatches, hcur, if_neg hcur]
      simp only [Bool.false_eq_true, if_false, List.isEmpty_cons, List.map_append,
        List.map_cons, List.map_nil, List.flatten_append, List.flatten_cons,
        List.flatten_nil, List.append_nil]
      simp [allTokens]

theorem foldl_addChunk_tokens (maxT : Nat) (pairs : List (String × List String))
    (x : String) : ∀ s : BatchState, (s.current.map (fun p => p.1)).Nodup →
    ((emittedBatches (pairs.foldl (fun s2 q => addChunk maxT s2 q.1 q.2) s)).map
        (fun b => tokensIn b x)).flatten
      = ((emittedBatches s).map (fun b => tokensIn b x)).flatten ++ tokensIn pairs x := by
  induction pairs with
  | nil => intro s _; simp [tokensIn]
  | cons q rest ih =>
    intro s hk
    obtain ⟨e, c⟩ := q
    rw [List.foldl_cons, ih _ (addChunk_keys maxT s e c hk),
      addChunk_tokens maxT s e c x hk, tokensIn_cons, List.append_assoc]

theorem foldl_addChunk_allTokens (maxT : Nat) (pairs : List (String × List String)) :
    ∀ s : BatchState,
    List.Perm
      ((emittedBatches (pairs.foldl (fun s2 q => addChunk maxT s2 q.1 q.2) s)).map
        allTokens).flatten
      (((emittedBatches s).map allTokens).flatten ++ (pairs.map (fun p => p.2)).flatten) := by
  induction pairs with
  | nil => intro s; simp
  | cons q rest ih =>
    intro s
    rw [List.foldl_cons]
    refine (ih (addChunk maxT s q.1 q.2)).trans ?_
    rw [List.map_cons, List.flatten_cons, ← List.append_assoc]
    exact List.Perm.append_right _ (addChunk_allTokens maxT s q.1 q.2)

theorem foldl_addChunk_inv (maxT : Nat) (pairs : List (String × List String))
    (hp : ∀ p ∈ pairs, p.2 ≠ [] ∧ p.2.length ≤ maxT) : ∀ s : BatchState,
    BatchInv maxT s → BatchInv maxT (pairs.foldl (fun s2 q => addChunk maxT s2 q.1 q.2) s) := by
  induction pairs with
  | nil => intro s h; exact h
  | cons q rest ih =>
    intro s h
    rw [List.foldl_cons]
    have hq := hp q (by simp)
    exact ih (fun p hmem => hp p (List.mem_cons_of_mem q hmem)) _
      (addChunk_inv maxT s q.1 q.2 hq.1 hq.2 h)

theorem emittedBatches_of_inv (maxT : Nat) (s : BatchState) (h : BatchInv maxT s) :
    ∀ b ∈ emittedBatches s, batchCount b ≤ maxT ∧ 1 ≤ batchCount b := by
  obtain ⟨h1, h2, h3, h4, h5⟩ := h
  intro b hb
  rw [emittedBatches] at hb
  by_cases hcur : s.current.isEmpty
  · rw [if_pos hcur] at hb
    exact h5 b hb
  · rw [if_neg hcur] at hb
    rcases List.mem_append.mp hb with hmem | hmem
    · exact h5 b hmem
    · have hbc : b = s.current := by simpa using hmem
      subst hbc
      have hne : s.current ≠ [] := by simpa [List.isEmpty_iff] using hcur
      exact ⟨h1 ▸ h2, h1 ▸ h3 hne⟩

theorem foldl_pairs (maxT : Nat) (et : List (String × List String)) :
    ∀ s : BatchState,
    et.foldl (fun s2 p => (chunkList maxT p.2).foldl (fun s3 c => addChunk maxT s3 p.1 c) s2) s
      = (pairsOf maxT et).foldl (fun s2 q => addChunk maxT s2 q.1 q.2) s := by
  induction et with
  | nil => intro s; rfl
  | cons p rest ih =>
    intro s
    rw [List.foldl_cons, pairsOf, List.flatMap_cons, List.foldl_append, List.foldl_map, ih]
    rfl

theorem batch_tokens_eq_pairs (maxT : Nat) (et : List (String × List String)) :
    batch_tokens maxT et
      = emittedBatches ((pairsOf maxT et).foldl (fun s2 q => addChunk maxT s2 q.1 q.2)
          { batches := [], current := [], count := 0 }) := by
  rw [batch_tokens, foldl_pairs]

theorem pairsOf_conds (maxT : Nat) (hn : 0 < maxT) (et : List (String × List String)) :
    ∀ p ∈ pairsOf maxT et, p.2 ≠ [] ∧ p.2.length ≤ maxT := by
  intro p hp
  rw [pairsOf, List.mem_flatMap] at hp
  obtain ⟨q, _, hpq⟩ := hp
  rw [List.mem_map] at hpq
  obtain ⟨c, hc, rfl⟩ := hpq
  have := chunkList_mem maxT hn q.2 c hc
  exact ⟨this.2, this.1⟩

theorem tokensIn_append (l1 l2 : List (String × List String)) (x : String) :
    tokensIn (l1 ++ l2) x = tokensIn l1 x ++ tokensIn l2 x := by
  simp [tokensIn, List.filter_append]

theorem tokensIn_map_const (e x : String) (cs : List (List String)) :
    tokensIn (cs.map (fun c => (e, c))) x = if e = x then cs.flatten else [] := by
  induction cs with
  | nil => by_cases hex : e = x <;> simp [tokensIn, hex]
  | cons c rest ih =>
    rw [List.map_cons, tokensIn_cons, ih]
    by_cases hex : e = x <;> simp [hex]

theorem tokensIn_pairsOf (maxT : Nat) (hn : 0 < maxT) (et : List (String × List String))
    (x : String) : tokensIn (pairsOf maxT et) x = tokensIn et x := by
  induction et with
  | nil => rfl
  | cons p rest ih =>
    rw [pairsOf, List.flatMap_cons, tokensIn_append, tokensIn_map_const, ← pairsOf, ih,
      tokensIn_cons, chunkList_flatten maxT hn p.2]

theorem flatten_pairsOf (maxT : Nat) (hn : 0 < maxT) (et : List (String × List String)) :
    ((pairsOf maxT et).map (fun p => p.2)).flatten = (et.map (fun p => p.2)).flatten := by
  induction et with
  | nil => rfl
  | cons p rest ih =>
    rw [pairsOf, List.flatMap_cons, List.map_append, List.flatten_append, ← pairsOf, ih,
      List.map_map]
    simp only [List.map_cons, List.flatten_cons]
    congr 1
    have : ((chunkList maxT p.2).map ((fun q : String × List String => q.2) ∘
        (fun c => (p.1, c)))) = chunkList maxT p.2 := by
      simp
    rw [this, chunkList_flatten maxT hn p.2]

theorem batchInv_init (maxT : Nat) :
    BatchInv maxT { batches := [], current := [], count := 0 } := by
  refine ⟨rfl, Nat.zero_le maxT, fun h => absurd rfl h, by simp, by simp⟩

/-- C1: for every exchange-token map and positive limit, batch_tokens emits
batches whose total token count never exceeds the limit; the concatenation of
all emitted tokens is a permutation of the input tokens (no token lost, none
duplicated), and for each exchange the concatenation across batches equals
the input token list of that exchange in order. -/
theorem batchTokens_limit_and_conservation (maxT : Nat) (et : List (String × List String))
    (hmax : 0 < maxT) :
    (∀ b ∈ batch_tokens maxT et, batchCount b ≤ maxT) ∧
    List.Perm ((batch_tokens maxT et).map allTokens).flatten
      ((et.map (fun p => p.2)).flatten) ∧
    (∀ x : String,
      ((batch_tokens maxT et).map (fun b => tokensIn b x)).flatten = tokensIn et x) := by
  rw [batch_tokens_eq_pairs]
  refine ⟨?_, ?_, ?_⟩
  · intro b hb
    exact (emittedBatches_of_inv maxT _
      (foldl_addChunk_inv maxT (pairsOf maxT et) (pairsOf_conds maxT hmax et) _
        (batchInv_init maxT)) b hb).1
  · refine (foldl_addChunk_allTokens maxT (pairsOf maxT et) _).trans ?_
    rw [flatten_pairsOf maxT hmax et]
    simp [emittedBatches]
  · intro x
    rw [foldl_addChunk_tokens maxT (pairsOf maxT et) x _ (by simp),
      tokensIn_pairsOf maxT hmax et x]
    simp [emittedBatches]

/-- C1 witness: the planner theorem applied to a concrete map with limit 2. -/
theorem batchTokens_limit_and_conservation_witness :
    ((batch_tokens 2 demoET).map (fun b => tokensIn b "NSE")).flatten
      = tokensIn demoET "NSE" :=
  (batchTokens_limit_and_conservation 2 demoET (by decide)).2.2 "NSE"

/-- C10: with a positive limit, every batch emitted by batch_tokens carries at
least one token, and the empty input map yields no batches at all. -/
theorem batchTokens_no_empty_batch (maxT : Nat) (et : List (String × List String))
    (hmax : 0 < maxT) :
    (∀ b ∈ batch_tokens maxT et, 1 ≤ batchCount b) ∧ batch_tokens maxT [] = [] := by
  constructor
  · rw [batch_tokens_eq_pairs]
    intro b hb
    exact (emittedBatches_of_inv maxT _
      (foldl_addChunk_inv maxT (pairsOf maxT et) (pairsOf_conds maxT hmax et) _
        (batchInv_init maxT)) b hb).2
  · rfl

/-- C10 witness: the first batch of the concrete plan holds two tokens. -/
theorem batchTokens_no_empty_batch_witness :
    1 ≤ batchCount [("NSE", ["t1", "t2"])] :=
  (batchTokens_no_empty_batch 2 demoET (by decide)).1 [("NSE", ["t1", "t2"])] (by decide)

/-! ## Acquisition loop timing lemmas (C7, C8) -/

theorem sleepLoopAux_all_true (fuel i : Nat) :
    sleepLoopAux (fun _ => true) fuel i = fuel := by
  induction fuel generalizing i with
  | zero => rfl
  | succ fuel ih =>
    rw [sleepLoopAux, if_pos rfl, ih]
    omega

/-- C7 counterexample: after a cycle that took 10 seconds with a 60 second
refresh interval, the monitor sleeps the full 60 seconds, not
max(0, 60 - 10) = 50 as the claim states. -/
theorem monitor_sleep_ignores_elapsed_cex :
    monitorCycleSleep 60 10 = 60 ∧ monitorCycleSleep 60 10 ≠ max 0 (60 - 10) := by
  constructor
  · rw [monitorCycleSleep, sleepLoop, sleepLoopAux_all_true]
  · rw [monitorCycleSleep, sleepLoop, sleepLoopAux_all_true]
    decide

/-- C7 amended: at the end of every cycle the monitor sleeps the full
refresh interval (in one-second increments while the flag stays up),
independent of the elapsed cycle duration, which is computed only for the
log line. -/
theorem monitor_sleep_full_interval (refresh elapsed : Nat) :
    monitorCycleSleep refresh elapsed = refresh := by
  rw [monitorCycleSleep, sleepLoop, sleepLoopAux_all_true]

/-- C8 counterexample: with the shutdown flag already down before the first
batch, the cycle still fetches all three planned batches instead of at most
the one in flight. -/
theorem shutdown_does_not_skip_batches_cex :
    processBatches [1, 2, 3] (fun _ => false) = 3 ∧
      ¬ processBatches [1, 2, 3] (fun _ => false) ≤ 1 := by
  constructor
  · rfl
  · intro h
    simp [processBatches, List.foldl] at h

/-- C8 amended: the per-cycle batch loops never consult the shutdown flag, so
every batch of the cycle is fetched no matter when the signal arrives; the
flag is honoured only by the post-cycle wait loop, which checks it before
each one-second sleep and therefore leaves the running state without sleeping
once the flag is down. -/
theorem shutdown_cycle_completes_all_batches (batches : List Nat) (run : Nat → Bool)
    (refresh : Nat) :
    processBatches batches run = batches.length ∧
      (run 0 = false → sleepLoop refresh run = 0) := by
  constructor
  · rw [processBatches]
    induction batches with
    | nil => rfl
    | cons b rest ih =>
      rw [List.foldl_cons]
      have hgen : ∀ (l : List Nat) (k : Nat), l.foldl (fun k _ => k + 1) k = k + l.length := by
        intro l
        induction l with
        | nil => intro k; simp
        | cons x xs ihx =>
          intro k
          rw [List.foldl_cons, ihx]
          simp only [List.length_cons]
          omega
      rw [hgen]
      simp only [List.length_cons]
      omega
  · intro hrun
    cases refresh with
    | zero => rfl
    | succ n =>
      rw [sleepLoop, sleepLoopAux, hrun]
      simp

/-- C8 witness: with the flag down from the start, the post-cycle wait loop
performs no sleep at all. -/
theorem shutdown_cycle_completes_all_batches_witness :
    sleepLoop 60 (fun _ => false) = 0 :=
  (shutdown_cycle_completes_all_batches [1, 2] (fun _ => false) 60).2 rfl

/-! ## Resolver lemmas (C3, C4, C9) -/

theorem parseAll_eq_none_iff (parse : String → Option Nat) (l : List RawRecord) :
    parseAll parse l = none ↔ ∃ r ∈ l, parse r.expiry = none := by
  induction l with
  | nil => simp [parseAll]
  | cons r rest ih =>
    rw [parseAll]
    cases hr : parse r.expiry with
    | none =>
      constructor
      · intro _
        exact ⟨r, List.mem_cons_self r rest, hr⟩
      · intro _
        rfl
    | some d =>
      cases hrest : parseAll parse rest with
      | none =>
        constructor
        · intro _
          obtain ⟨x, hx, hxn⟩ := ih.mp hrest
          exact ⟨x, List.mem_cons_of_mem r hx, hxn⟩
        · intro _
          rfl
      | some ps =>
        constructor
        · intro hcontr
          exact absurd hcontr (by simp)
        · rintro ⟨x, hx, hxn⟩
          rcases List.mem_cons.mp hx with h1 | hxm
          · subst h1
            rw [hr] at hxn
            exact absurd hxn (by simp)
          · have h2 := ih.mpr ⟨x, hxm, hxn⟩
            rw [hrest] at h2
            exact absurd h2 (by simp)

theorem parseAll_length (parse : String → Option Nat) (l : List RawRecord)
    (ps : List (RawRecord × Nat)) (h : parseAll parse l = some ps) :
    ps.length = l.length := by
  induction l generalizing ps with
  | nil =>
    rw [parseAll] at h
    injection h with h
    subst h
    rfl
  | cons r rest ih =>
    rw [parseAll] at h
    cases hr : parse r.expiry with
    | none => rw [hr] at h; exact absurd h (by simp)
    | some d =>
      rw [hr] at h
      cases hrest : parseAll parse rest with
      | none => rw [hrest] at h; exact absurd h (by simp)
      | some qs =>
        rw [hrest] at h
        injection h with h
        subst h
        simp [ih qs hrest]

/-- C3 counterexample: a futures cohort with one parsable and one unparsable
expiry is fatal to resolution, although eligible rows exist and not every
candidate fails to parse, contradicting the claim that such a row is merely
dropped. -/
theorem futures_single_bad_expiry_is_fatal_cex :
    (process_futures_tokens demoParse demoBadCatalog).isNone = true ∧
    (eligibleFutures demoBadCatalog).length = 2 ∧
    ¬ (∀ r ∈ eligibleFutures demoBadCatalog, demoParse r.expiry = none) := by
  refine ⟨rfl, rfl, ?_⟩
  intro h
  exact absurd (h demoFutRaw (by decide)) (by decide)

theorem minNat_eq_none_iff (l : List Nat) : minNat l = none ↔ l = [] := by
  cases l <;> simp [minNat]

/-- C3 amended: resolution of the futures cohort fails exactly when no
eligible futures rows exist or when at least one candidate row has an
unparsable expiry; a single unparsable row aborts the whole cohort instead of
being dropped. -/
theorem futures_resolution_fails_iff (parse : String → Option Nat)
    (catalog : List RawRecord) :
    process_futures_tokens parse catalog = none ↔
      eligibleFutures catalog = [] ∨
        ∃ r ∈ eligibleFutures catalog, parse r.expiry = none := by
  rw [process_futures_tokens]
  split
  · rename_i hemp
    rw [List.isEmpty_iff] at hemp
    simp [hemp]
  · rename_i hemp
    rw [List.isEmpty_iff] at hemp
    split
    · rename_i hp
      simp only [true_iff]
      exact Or.inr ((parseAll_eq_none_iff parse _).mp hp)
    · rename_i ps hp
      split
      · rename_i hm
        rw [minNat_eq_none_iff, List.map_eq_nil_iff] at hm
        subst hm
        have h0 : (eligibleFutures catalog).length = 0 :=
          (parseAll_length parse _ [] hp).symm
        exact ((hemp (List.eq_nil_of_length_eq_zero h0)).elim)
      · rename_i m hm
        simp only [reduceCtorEq, false_iff, not_or]
        refine ⟨hemp, fun hex => ?_⟩
        have hh := (parseAll_eq_none_iff parse (eligibleFutures catalog)).mpr hex
        rw [hp] at hh
        exact absurd hh (by simp)

/-- C3 witness: the amended equivalence applied to the concrete two-row
catalog, whose second row fails to parse. -/
theorem futures_resolution_fails_iff_witness :
    process_futures_tokens demoParse demoBadCatalog = none :=
  (futures_resolution_fails_iff demoParse demoBadCatalog).mpr
    (Or.inr ⟨demoFutRawBad, by decide, rfl⟩)

/-- C9 counterexample: the equity cohort of a concrete catalog resolves, and
its row carries strike 0, not the null strike the claim asserts. -/
theorem equity_strike_zero_not_null_cex :
    (process_equity_tokens demoCatalog [demoFutResolved]).isSome = true ∧
    ¬ (∀ r ∈ (process_equity_tokens demoCatalog [demoFutResolved]).getD [],
        r.strike = none) := by
  refine ⟨rfl, ?_⟩
  intro h
  exact absurd (h demoEqResolved (by decide)) (by decide)

/-- C9 amended: every equity row produced by resolution has a null expiry but
a zero strike (the source assigns the numeric placeholder 0.0, not null). -/
theorem equity_rows_expiry_null_strike_zero (catalog : List RawRecord)
    (futures_df : List ResolvedRecord) (out : List ResolvedRecord)
    (h : process_equity_tokens catalog futures_df = some out) :
    ∀ r ∈ out, r.expiry = none ∧ r.strike = some 0 ∧ r.token_type = tokenTypeEquity := by
  rw [process_equity_tokens] at h
  by_cases hemp : (catalog.filter (fun r => r.exch_seg = nseSegment ∧
      r.symbol ∈ futures_df.map (fun f => f.name ++ "-EQ"))).isEmpty
  · rw [if_pos hemp] at h
    exact absurd h (by simp)
  · rw [if_neg hemp] at h
    injection h with h
    subst h
    intro r hr
    rw [List.mem_map] at hr
    obtain ⟨x, _, rfl⟩ := hr
    exact ⟨rfl, rfl, rfl⟩

/-- C9 witness: the amended theorem applied to the concrete catalog and its
single resolved equity row. -/
theorem equity_rows_expiry_null_strike_zero_witness :
    demoEqResolved.expiry = none ∧ demoEqResolved.strike = some 0 ∧
      demoEqResolved.token_type = tokenTypeEquity :=
  equity_rows_expiry_null_strike_zero demoCatalog [demoFutResolved]
    [demoEqResolved] rfl demoEqResolved (by decide)

theorem process_and_store_resolve (parse : String → Option Nat)
    (catalog : List RawRecord) (store : List ResolvedRecord) :
    process_and_store_tokens parse (some catalog) store
      = match resolveTokens parse catalog with
        | none => (store, false)
        | some rows => store_tokens store rows := by
  rw [process_and_store_tokens, resolveTokens]
  cases hf : process_futures_tokens parse catalog with
  | none => rfl
  | some fut =>
    cases ho : process_options_tokens parse catalog with
    | none => simp [hf, ho]
    | some opt =>
      cases he : process_equity_tokens catalog fut with
      | none => simp [hf, ho, he]
      | some eqs => simp [hf, ho, he]

/-- C4 amended: a failed fetch or failed resolution of any cohort leaves the
token store untouched and reports failure; successful resolution replaces the
store wholesale with the resolved rows when their tokens are pairwise
distinct; but when the fresh rows collide on the token primary key, the
already-committed DELETE leaves the store empty, with the new rows absent. -/
theorem tokenStore_fail_closed_and_replacement (parse : String → Option Nat)
    (catalog : List RawRecord) (store : List ResolvedRecord) :
    (process_and_store_tokens parse none store = (store, false)) ∧
    (resolveTokens parse catalog = none →
      process_and_store_tokens parse (some catalog) store = (store, false)) ∧
    (∀ rows, resolveTokens parse catalog = some rows →
      ((rows.map (fun r => r.token)).Nodup →
        process_and_store_tokens parse (some catalog) store = (rows, true)) ∧
      (¬ (rows.map (fun r => r.token)).Nodup →
        process_and_store_tokens parse (some catalog) store = ([], false))) := by
  refine ⟨rfl, ?_, ?_⟩
  · intro hres
    rw [process_and_store_resolve, hres]
  · intro rows hres
    constructor
    · intro hnd
      rw [process_and_store_resolve, hres]
      simp only [store_tokens, if_pos hnd]
    · intro hnd
      rw [process_and_store_resolve, hres]
      simp only [store_tokens, if_neg hnd]

/-- C4 counterexample: a catalog whose futures row is delivered twice
resolves successfully, yet the refresh leaves the store empty (neither the
old rows nor the new ones), because the DELETE committed before the INSERT
hit the duplicate token primary key. -/
theorem tokenStore_dup_token_insert_empties_store_cex :
    process_and_store_tokens demoParse (some demoCatalogDup) demoStore = ([], false) ∧
    (resolveTokens demoParse demoCatalogDup).isSome = true ∧
    demoStore ≠ [] := by
  refine ⟨rfl, rfl, by decide⟩

/-- C4 witness: on the clean catalog, the refresh replaces the old store
contents with exactly the three resolved rows. -/
theorem tokenStore_fail_closed_and_replacement_witness :
    process_and_store_tokens demoParse (some demoCatalog) demoStore
      = (demoResolvedRows, true) := by
  have hres : resolveTokens demoParse demoCatalog = some demoResolvedRows := by rfl
  exact ((tokenStore_fail_closed_and_replacement demoParse demoCatalog demoStore).2.2
    demoResolvedRows hres).1 (by decide)

/-! ## Quote store lemmas (C6) -/

theorem quoteKey_updateQuoteRow (w : QuoteRow) (r : QuoteRecord) :
    quoteKey (updateQuoteRow w r) = quoteKey w := rfl

theorem quoteKey_insertQuoteRow (r : QuoteRecord) (ts : Nat) :
    quoteKey (insertQuoteRow r ts) = (r.symbolToken, ts) := rfl

theorem updateQuoteRow_idem (w : QuoteRow) (r : QuoteRecord) :
    updateQuoteRow (updateQuoteRow w r) r = updateQuoteRow w r := rfl

theorem updateQuoteRow_insertQuoteRow (r : QuoteRecord) (ts : Nat) :
    updateQuoteRow (insertQuoteRow r ts) r = insertQuoteRow r ts := rfl

theorem any_key_iff (st : List QuoteRow) (k : String × Nat) :
    st.any (fun w => quoteKey w = k) = true ↔ k ∈ st.map quoteKey := by
  rw [List.any_eq_true]
  constructor
  · rintro ⟨w, hw, hk⟩
    rw [← (by simpa using hk : quoteKey w = k)]
    exact List.mem_map_of_mem quoteKey hw
  · intro hk
    obtain ⟨w, hw, hwk⟩ := List.mem_map.mp hk
    exact ⟨w, hw, by simpa using hwk⟩

theorem filter_key_len_one (st : List QuoteRow) (k : String × Nat)
    (h : (st.map quoteKey).Nodup)
    (hany : st.any (fun w => quoteKey w = k) = true) :
    (st.filter (fun w => quoteKey w = k)).length = 1 := by
  induction st with
  | nil => simp at hany
  | cons w rest ih =>
    rw [List.map_cons, List.nodup_cons] at h
    obtain ⟨hw, hrest⟩ := h
    by_cases hwk : quoteKey w = k
    · rw [List.filter_cons_of_pos (by simpa using hwk)]
      have hnone : rest.filter (fun w2 => quoteKey w2 = k) = [] := by
        rw [List.filter_eq_nil_iff]
        intro w2 hw2
        simp only [decide_eq_true_eq]
        intro hk2
        exact hw (by rw [hwk, ← hk2]; exact List.mem_map_of_mem quoteKey hw2)
      rw [hnone]
      rfl
    · rw [List.filter_cons_of_neg (by simpa using hwk)]
      rw [List.any_cons] at hany
      have hany2 : rest.any (fun w2 => quoteKey w2 = k) = true := by
        rcases Bool.or_eq_true_iff.mp hany with h1 | h1
        · exact absurd (by simpa using h1) hwk
        · exact h1
      exact ih hrest hany2

/-- C6: persisting the same quote record twice with the same default
timestamp is idempotent: the double store equals a single upsert, exactly one
row holds the (symbol_token, timestamp) key afterwards, and when the key was
fresh that row carries precisely the values of the write. -/
theorem quote_upsert_idempotent (st : List QuoteRow) (r : QuoteRecord) (ts : Nat)
    (h : (st.map quoteKey).Nodup) :
    store_realtime_market_data st [r, r] ts = (upsertQuote st r ts, true) ∧
    ((upsertQuote st r ts).filter
        (fun w => quoteKey w = (r.symbolToken, ts))).length = 1 ∧
    ((r.symbolToken, ts) ∉ st.map quoteKey →
      (upsertQuote st r ts).filter (fun w => quoteKey w = (r.symbolToken, ts))
        = [insertQuoteRow r ts]) := by
  have hkeyfun : ∀ w : QuoteRow,
      quoteKey (if quoteKey w = (r.symbolToken, ts) then updateQuoteRow w r else w)
        = quoteKey w := by
    intro w
    by_cases hw : quoteKey w = (r.symbolToken, ts)
    · rw [if_pos hw, quoteKey_updateQuoteRow]
    · rw [if_neg hw]
  refine ⟨?_, ?_, ?_⟩
  · rw [store_realtime_market_data]
    rw [if_neg (by simp)]
    simp only [List.foldl_cons, List.foldl_nil]
    congr 1
    by_cases hany : st.any (fun w => quoteKey w = (r.symbolToken, ts)) = true
    · have hin : upsertQuote st r ts = st.map (fun w =>
          if quoteKey w = (r.symbolToken, ts) then updateQuoteRow w r else w) := by
        rw [upsertQuote, if_pos hany]
      rw [hin]
      have hany2 : (st.map (fun w =>
          if quoteKey w = (r.symbolToken, ts) then updateQuoteRow w r else w)).any
            (fun w => quoteKey w = (r.symbolToken, ts)) = true := by
        rw [List.any_map, List.any_eq_true]
        obtain ⟨w, hw, hk⟩ := List.any_eq_true.mp hany
        refine ⟨w, hw, ?_⟩
        simp only [Function.comp_apply, hkeyfun w]
        exact hk
      rw [upsertQuote, if_pos hany2, List.map_map]
      refine List.map_congr_left ?_
      intro w _
      by_cases hw : quoteKey w = (r.symbolToken, ts)
      · simp only [Function.comp_apply, if_pos hw]
        rw [if_pos (by rw [quoteKey_updateQuoteRow]; exact hw), updateQuoteRow_idem]
      · simp only [Function.comp_apply, if_neg hw]
    · have hin : upsertQuote st r ts = st ++ [insertQuoteRow r ts] := by
        rw [upsertQuote, if_neg hany]
      rw [hin]
      have hany2 : ((st ++ [insertQuoteRow r ts]).any
          (fun w => quoteKey w = (r.symbolToken, ts))) = true := by
        rw [List.any_append]
        simp [quoteKey_insertQuoteRow]
      rw [upsertQuote, if_pos hany2, List.map_append]
      have hstid : st.map (fun w =>
          if quoteKey w = (r.symbolToken, ts) then updateQuoteRow w r else w) = st := by
        have hnm : ∀ w ∈ st, ¬ quoteKey w = (r.symbolToken, ts) := by
          intro w hw hk
          exact hany (List.any_eq_true.mpr ⟨w, hw, by simpa using hk⟩)
        calc st.map (fun w =>
            if quoteKey w = (r.symbolToken, ts) then updateQuoteRow w r else w)
            = st.map id := List.map_congr_left (fun w hw => if_neg (hnm w hw))
          _ = st := List.map_id st
      rw [hstid]
      simp [quoteKey_insertQuoteRow, updateQuoteRow_insertQuoteRow]
  · by_cases hany : st.any (fun w => quoteKey w = (r.symbolToken, ts)) = true
    · rw [upsertQuote, if_pos hany]
      rw [List.filter_map]
      have hfc : (st.filter ((fun w => decide (quoteKey w = (r.symbolToken, ts))) ∘
          (fun w => if quoteKey w = (r.symbolToken, ts) then updateQuoteRow w r else w)))
          = st.filter (fun w => quoteKey w = (r.symbolToken, ts)) := by
        refine List.filter_congr ?_
        intro w _
        simp [hkeyfun w]
      rw [hfc, List.length_map]
      exact filter_key_len_one st (r.symbolToken, ts) h hany
    · rw [upsertQuote, if_neg hany, List.filter_append]
      have hnone : st.filter (fun w => quoteKey w = (r.symbolToken, ts)) = [] := by
        rw [List.filter_eq_nil_iff]
        intro w hw
        simp only [decide_eq_true_eq]
        intro hk
        exact hany (List.any_eq_true.mpr ⟨w, hw, by simpa using hk⟩)
      rw [hnone]
      simp [quoteKey_insertQuoteRow]
  · intro hmem
    have hany : ¬ st.any (fun w => quoteKey w = (r.symbolToken, ts)) = true := by
      intro hc
      exact hmem ((any_key_iff st (r.symbolToken, ts)).mp hc)
    rw [upsertQuote, if_neg hany, List.filter_append]
    have hnone : st.filter (fun w => quoteKey w = (r.symbolToken, ts)) = [] := by
      rw [List.filter_eq_nil_iff]
      intro w hw
      simp only [decide_eq_true_eq]
      intro hk
      exact hany (List.any_eq_true.mpr ⟨w, hw, by simpa using hk⟩)
    rw [hnone]
    simp [quoteKey_insertQuoteRow]

/-- C6 witness: storing the concrete quote twice into an empty store leaves
exactly one row for its key. -/
theorem quote_upsert_idempotent_witness :
    ((upsertQuote [] demoQuote 0).filter
        (fun w => quoteKey w = (demoQuote.symbolToken, 0))).length = 1 :=
  (quote_upsert_idempotent [] demoQuote 0 (by simp)).2.1

/-! ## Strike distance lemmas (C2) -/

theorem mem_firstOccs_aux [DecidableEq α] (l : List α) (acc : List α) (a : α) :
    (a ∈ l.foldl (fun acc2 x => if x ∈ acc2 then acc2 else acc2 ++ [x]) acc)
      ↔ a ∈ acc ∨ a ∈ l := by
  induction l generalizing acc with
  | nil => simp
  | cons x rest ih =>
    rw [List.foldl_cons, ih]
    by_cases hx : x ∈ acc
    · rw [if_pos hx]
      constructor
      · rintro (h | h)
        · exact Or.inl h
        · exact Or.inr (List.mem_cons_of_mem x h)
      · rintro (h | h)
        · exact Or.inl h
        · rcases List.mem_cons.mp h with rfl | h2
          · exact Or.inl hx
          · exact Or.inr h2
    · rw [if_neg hx]
      simp [List.mem_append, List.mem_cons, or_assoc]

theorem mem_firstOccs [DecidableEq α] (l : List α) (a : α) : a ∈ firstOccs l ↔ a ∈ l := by
  rw [firstOccs, mem_firstOccs_aux]
  simp

theorem foldl_pickMax_spec {β : Type v_1} [LinearOrder β] (f : α → β) (x : α) (xs : List α) :
    xs.foldl (fun b y => if f b < f y then y else b) x ∈ x :: xs ∧
      ∀ z ∈ x :: xs, f z ≤ f (xs.foldl (fun b y => if f b < f y then y else b) x) := by
  induction xs generalizing x with
  | nil =>
    refine ⟨by simp, ?_⟩
    intro z hz
    rw [List.mem_singleton] at hz
    subst hz
    exact le_refl _
  | cons y ys ih =>
    rw [List.foldl_cons]
    obtain ⟨ihm, ihb⟩ := ih (if f x < f y then y else x)
    constructor
    · rcases List.mem_cons.mp ihm with h1 | h1
      · rw [h1]
        by_cases hxy : f x < f y
        · rw [if_pos hxy]
          exact List.mem_cons_of_mem x (List.mem_cons_self y ys)
        · rw [if_neg hxy]
          exact List.mem_cons_self x _
      · exact List.mem_cons_of_mem x (List.mem_cons_of_mem y h1)
    · intro z hz
      rcases List.mem_cons.mp hz with rfl | hz2
      · have hstep : f z ≤ f (if f z < f y then y else z) := by
          by_cases hxy : f z < f y
          · rw [if_pos hxy]
            exact le_of_lt hxy
          · rw [if_neg hxy]
        exact le_trans hstep (ihb _ (List.mem_cons_self _ _))
      · rcases List.mem_cons.mp hz2 with rfl | hz3
        · have hstep : f z ≤ f (if f x < f z then z else x) := by
            by_cases hxy : f x < f z
            · rw [if_pos hxy]
            · rw [if_neg hxy]
              exact le_of_not_lt hxy
          exact le_trans hstep (ihb _ (List.mem_cons_self _ _))
        · exact ihb z (List.mem_cons_of_mem _ hz3)

theorem mostCommon_spec [DecidableEq α] (l : List α) (d : α) (h : mostCommon l = some d) :
    d ∈ l ∧ ∀ x ∈ l, l.count x ≤ l.count d := by
  rw [mostCommon] at h
  cases hf : firstOccs l with
  | nil =>
    rw [hf] at h
    exact absurd h (by simp)
  | cons x xs =>
    rw [hf] at h
    have hd : xs.foldl (fun b y => if l.count b < l.count y then y else b) x = d := by
      simpa using h
    obtain ⟨hmem, hbound⟩ := foldl_pickMax_spec (fun a => l.count a) x xs
    rw [hd] at hmem hbound
    constructor
    · have : d ∈ firstOccs l := by rw [hf]; exact hmem
      exact (mem_firstOccs l d).mp this
    · intro z hz
      have hz2 : z ∈ x :: xs := by
        rw [← hf]
        exact (mem_firstOccs l z).mpr hz
      exact hbound z hz2

theorem mostCommon_isSome [DecidableEq α] (l : List α) (hne : l ≠ []) :
    ∃ d, mostCommon l = some d := by
  rw [mostCommon]
  cases hf : firstOccs l with
  | nil =>
    obtain ⟨a, ha⟩ := List.exists_mem_of_ne_nil l hne
    have : a ∈ firstOccs l := (mem_firstOccs l a).mpr ha
    rw [hf] at this
    exact absurd this (by simp)
  | cons x xs => exact ⟨_, rfl⟩

theorem insertAsc_perm [LinearOrder α] (x : α) (l : List α) :
    List.Perm (insertAsc x l) (x :: l) := by
  induction l with
  | nil => exact List.Perm.refl _
  | cons y ys ih =>
    rw [insertAsc]
    by_cases h : y ≤ x
    · rw [if_pos h]
      exact (ih.cons y).trans (List.Perm.swap x y ys)
    · rw [if_neg h]

theorem sortAsc_foldl_perm [LinearOrder α] (l : List α) : ∀ acc : List α,
    List.Perm (l.foldl (fun acc2 x => insertAsc x acc2) acc) (acc ++ l) := by
  induction l with
  | nil => intro acc; simp
  | cons x rest ih =>
    intro acc
    rw [List.foldl_cons]
    refine (ih (insertAsc x acc)).trans ?_
    refine (List.Perm.append_right rest (insertAsc_perm x acc)).trans ?_
    exact List.perm_middle.symm

theorem sortAsc_perm [LinearOrder α] (l : List α) : List.Perm (sortAsc l) l := by
  rw [sortAsc]
  simpa using sortAsc_foldl_perm l []

theorem mem_sortedUnique (l : List ℚ) (a : ℚ) : a ∈ sortedUnique l ↔ a ∈ l := by
  rw [sortedUnique, (sortAsc_perm (firstOccs l)).mem_iff, mem_firstOccs]

theorem roundHalfEven_intCast (z : ℤ) : roundHalfEven (z : ℚ) = z := by
  rw [roundHalfEven, Int.floor_intCast, if_pos (by norm_num)]

theorem round2_grid (q : ℚ) (z : ℤ) (hz : q * 100 = (z : ℚ)) : round2 q = q := by
  rw [round2, hz, roundHalfEven_intCast, ← hz]
  exact mul_div_cancel_right₀ q (by norm_num)

theorem adjDiffs_eq_spec : ∀ (l : List ℚ),
    (∀ x ∈ l, ∃ z : ℤ, x * 100 = (z : ℚ)) → adjDiffs l = specAdjDiffs l
  | [], _ => rfl
  | [_], _ => rfl
  | a :: b :: t2, hg => by
    rw [adjDiffs, specAdjDiffs]
    obtain ⟨za, hza⟩ := hg a (List.mem_cons_self _ _)
    obtain ⟨zb, hzb⟩ := hg b (List.mem_cons_of_mem a (List.mem_cons_self _ _))
    congr 1
    · refine round2_grid (b - a) (zb - za) ?_
      calc (b - a) * 100 = b * 100 - a * 100 := by ring
        _ = (zb : ℚ) - (za : ℚ) := by rw [hza, hzb]
        _ = ((zb - za : ℤ) : ℚ) := by push_cast; ring
    · exact adjDiffs_eq_spec (b :: t2) (fun x hx => hg x (List.mem_cons_of_mem a hx))

theorem strikeDistanceOf_spec (strikes : List ℚ)
    (hg : ∀ x ∈ strikes, ∃ z : ℤ, x * 100 = (z : ℚ))
    (h2 : 1 < (sortedUnique strikes).length) :
    (strikeDistanceOf strikes).isSome = true ∧
    ∀ d, strikeDistanceOf strikes = some d →
      d ∈ specAdjDiffs (sortedUnique strikes) ∧
      ∀ x ∈ specAdjDiffs (sortedUnique strikes),
        (specAdjDiffs (sortedUnique strikes)).count x
          ≤ (specAdjDiffs (sortedUnique strikes)).count d := by
  have hgu : ∀ x ∈ sortedUnique strikes, ∃ z : ℤ, x * 100 = (z : ℚ) :=
    fun x hx => hg x ((mem_sortedUnique strikes x).mp hx)
  have heq : adjDiffs (sortedUnique strikes) = specAdjDiffs (sortedUnique strikes) :=
    adjDiffs_eq_spec _ hgu
  have hne : adjDiffs (sortedUnique strikes) ≠ [] := by
    cases hu : sortedUnique strikes with
    | nil => rw [hu] at h2; simp at h2
    | cons a t =>
      cases t with
      | nil => rw [hu] at h2; simp at h2
      | cons b t2 =>
        rw [adjDiffs]
        simp
  simp only [strikeDistanceOf]
  rw [if_pos h2]
  obtain ⟨d0, hd0⟩ := mostCommon_isSome _ hne
  constructor
  · rw [hd0]
    rfl
  · intro d hd
    have hspec := mostCommon_spec _ d hd
    rw [heq] at hspec
    exact hspec

theorem outStrikesFor_map_optionRowOf (cohort : List (RawRecord × Nat)) (n : String) :
    outStrikesFor (cohort.map (optionRowOf cohort)) n = cohortStrikesFor cohort n := by
  rw [outStrikesFor, cohortStrikesFor, List.filter_map, List.map_map]
  rw [List.filter_congr (fun p _ => (rfl :
    ((fun o : ResolvedRecord => decide (o.name = n)) ∘ optionRowOf cohort) p
      = decide (p.1.name = n)))]
  exact List.map_congr_left (fun p _ => rfl)

/-- C2: for every row of a resolved options cohort whose underlying has at
least two distinct strikes (all on the hundredth grid the provider uses), the
stored strike distance is present and is the statistical mode of the adjacent
differences of the sorted distinct strikes of that underlying. -/
theorem strikeDistance_is_mode (parse : String → Option Nat) (catalog : List RawRecord)
    (out : List ResolvedRecord) (r : ResolvedRecord)
    (hout : process_options_tokens parse catalog = some out) (hr : r ∈ out)
    (hg : ∀ x ∈ outStrikesFor out r.name, ∃ z : ℤ, x * 100 = (z : ℚ))
    (h2 : 1 < (sortedUnique (outStrikesFor out r.name)).length) :
    r.strike_distance.isSome = true ∧
    ∀ d, r.strike_distance = some d →
      d ∈ specAdjDiffs (sortedUnique (outStrikesFor out r.name)) ∧
      ∀ x ∈ specAdjDiffs (sortedUnique (outStrikesFor out r.name)),
        (specAdjDiffs (sortedUnique (outStrikesFor out r.name))).count x
          ≤ (specAdjDiffs (sortedUnique (outStrikesFor out r.name))).count d := by
  rw [process_options_tokens] at hout
  split at hout
  · exact absurd hout (by simp)
  · split at hout
    · exact absurd hout (by simp)
    · split at hout
      · exact absurd hout (by simp)
      · injection hout with hout
        subst hout
        obtain ⟨p, hpmem, rfl⟩ := List.mem_map.mp hr
        rw [outStrikesFor_map_optionRowOf] at hg h2 ⊢
        exact strikeDistanceOf_spec _ hg h2

/-- C2 witness: the concrete four-strike cohort 100, 150, 200, 260 carries a
strike distance, and 50 (its value) is one of the adjacent differences. -/
theorem strikeDistance_is_mode_witness :
    demoC2Row.strike_distance.isSome = true ∧
    (50 : ℚ) ∈ specAdjDiffs (sortedUnique (outStrikesFor demoC2Out "BAR")) := by
  have hout : process_options_tokens demoParse demoC2Catalog = some demoC2Out := by
    norm_num [process_options_tokens, optionRowOf, eligibleOptions, parseAll, demoParse,
      demoC2Catalog, demoC2Out, demoC2Row, demoOptRaw, minNat, cohortStrikesFor,
      strikeDistanceOf, sortedUnique, sortAsc, insertAsc, firstOccs, adjDiffs, round2,
      roundHalfEven, mostCommon, List.count, List.countP, List.countP.go, beq_iff_eq,
      cond_eq_if, optionsType, nfoSegment, tokenTypeOptions]
  have hg : ∀ x ∈ outStrikesFor demoC2Out demoC2Row.name, ∃ z : ℤ, x * 100 = (z : ℚ) := by
    intro x hx
    have hx2 : x ∈ [(100 : ℚ), 150, 200, 260] := by
      simpa [outStrikesFor, demoC2Out, demoC2Row] using hx
    simp only [List.mem_cons, List.not_mem_nil, or_false] at hx2
    rcases hx2 with rfl | rfl | rfl | rfl
    · exact ⟨10000, by norm_num⟩
    · exact ⟨15000, by norm_num⟩
    · exact ⟨20000, by norm_num⟩
    · exact ⟨26000, by norm_num⟩
  have h2 : 1 < (sortedUnique (outStrikesFor demoC2Out demoC2Row.name)).length := by
    norm_num [outStrikesFor, demoC2Out, demoC2Row, sortedUnique, sortAsc, insertAsc,
      firstOccs]
  have h := strikeDistance_is_mode demoParse demoC2Catalog demoC2Out demoC2Row hout
    (by decide) hg h2
  exact ⟨h.1, (h.2 50 rfl).1⟩

/-! ## ATM selector lemmas (C5) -/

theorem foldl_pickMin_spec {β : Type v_1} [LinearOrder β] (f : α → β) (x : α) (xs : List α) :
    xs.foldl (fun b y => if f y < f b then y else b) x ∈ x :: xs ∧
      ∀ z ∈ x :: xs, f (xs.foldl (fun b y => if f y < f b then y else b) x) ≤ f z := by
  induction xs generalizing x with
  | nil =>
    refine ⟨by simp, ?_⟩
    intro z hz
    rw [List.mem_singleton] at hz
    subst hz
    exact le_refl _
  | cons y ys ih =>
    rw [List.foldl_cons]
    obtain ⟨ihm, ihb⟩ := ih (if f y < f x then y else x)
    constructor
    · rcases List.mem_cons.mp ihm with h1 | h1
      · rw [h1]
        by_cases hxy : f y < f x
        · rw [if_pos hxy]
          exact List.mem_cons_of_mem x (List.mem_cons_self y ys)
        · rw [if_neg hxy]
          exact List.mem_cons_self x _
      · exact List.mem_cons_of_mem x (List.mem_cons_of_mem y h1)
    · intro z hz
      rcases List.mem_cons.mp hz with rfl | hz2
      · have hstep : f (if f y < f z then y else z) ≤ f z := by
          by_cases hxy : f y < f z
          · rw [if_pos hxy]
            exact le_of_lt hxy
          · rw [if_neg hxy]
        exact le_trans (ihb _ (List.mem_cons_self _ _)) hstep
      · rcases List.mem_cons.mp hz2 with rfl | hz3
        · have hstep : f (if f z < f x then z else x) ≤ f z := by
            by_cases hxy : f z < f x
            · rw [if_pos hxy]
            · rw [if_neg hxy]
              exact le_of_not_lt hxy
          exact le_trans (ihb _ (List.mem_cons_self _ _)) hstep
        · exact ihb z (List.mem_cons_of_mem _ hz3)

theorem pickClosest_spec (rows : List ResolvedRecord) (p : ℚ) (r : ResolvedRecord)
    (h : pickClosest rows p = some r) :
    r ∈ rows ∧ r.strike.isSome = true ∧
      ∀ r2 ∈ rows, r2.strike.isSome = true → atmDist p r ≤ atmDist p r2 := by
  rw [pickClosest] at h
  cases hf : rows.filter (fun w => w.strike.isSome) with
  | nil =>
    rw [hf] at h
    exact absurd h (by simp)
  | cons r0 rest =>
    rw [hf] at h
    have hd : rest.foldl (fun b y => if atmDist p y < atmDist p b then y else b) r0 = r := by
      simpa using h
    obtain ⟨hmem, hbound⟩ := foldl_pickMin_spec (atmDist p) r0 rest
    rw [hd] at hmem hbound
    have hrf : r ∈ rows.filter (fun w => w.strike.isSome) := by
      rw [hf]
      exact hmem
    rw [List.mem_filter] at hrf
    refine ⟨hrf.1, by simpa using hrf.2, ?_⟩
    intro r2 hr2 hs2
    refine hbound r2 ?_
    rw [← hf]
    rw [List.mem_filter]
    exact ⟨hr2, by simpa using hs2⟩

theorem typeGroup_mem (opts : List ResolvedRecord) (n t : String) (r : ResolvedRecord)
    (h : r ∈ typeGroup opts n t) :
    r ∈ opts ∧ r.name = n ∧ optionTypeOf r.symbol = some t := by
  rw [typeGroup, List.mem_filter] at h
  refine ⟨h.1, ?_, ?_⟩
  · have := h.2
    simp only [decide_eq_true_eq] at this
    exact this.1
  · have := h.2
    simp only [decide_eq_true_eq] at this
    exact this.2

theorem typeGroup_mem_of (opts : List ResolvedRecord) (n t : String) (r : ResolvedRecord)
    (h1 : r ∈ opts) (h2 : r.name = n) (h3 : optionTypeOf r.symbol = some t) :
    r ∈ typeGroup opts n t := by
  rw [typeGroup, List.mem_filter]
  exact ⟨h1, by simp [h2, h3]⟩

theorem typesPresent_len (opts : List ResolvedRecord) (n : String) :
    (typesPresent opts n).length ≤ 2 := by
  rw [typesPresent]
  simpa using List.length_filter_le _ ["CE", "PE"]

theorem pickForTypes_spec (opts : List ResolvedRecord) (n : String) (p : ℚ) :
    ∀ (ts : List String) (rs : List ResolvedRecord),
    pickForTypes opts n p ts = some rs →
    rs.length = ts.length ∧
      ∀ r ∈ rs, ∃ t ∈ ts, pickClosest (typeGroup opts n t) p = some r := by
  intro ts
  induction ts with
  | nil =>
    intro rs h
    rw [pickForTypes] at h
    have hrs : rs = [] := by simpa using h.symm
    subst hrs
    simp
  | cons t ts2 ih =>
    intro rs h
    rw [pickForTypes] at h
    cases hp : pickClosest (typeGroup opts n t) p with
    | none => rw [hp] at h; exact absurd h (by simp)
    | some r0 =>
      rw [hp] at h
      cases hrest : pickForTypes opts n p ts2 with
      | none => rw [hrest] at h; exact absurd h (by simp)
      | some rs2 =>
        rw [hrest] at h
        have hrs : rs = r0 :: rs2 := by simpa using h.symm
        subst hrs
        obtain ⟨ihl, ihm⟩ := ih rs2 hrest
        constructor
        · simp [ihl]
        · intro r hr
          rcases List.mem_cons.mp hr with rfl | hr2
          · exact ⟨t, List.mem_cons_self t ts2, hp⟩
          · obtain ⟨t2, ht2, hpc⟩ := ihm r hr2
            exact ⟨t2, List.mem_cons_of_mem t ht2, hpc⟩

theorem exactForName_spec (opts : List ResolvedRecord) (n : String) (p : ℚ)
    (rs : List ResolvedRecord) (h : exactForName opts n p = some rs) :
    rs.length ≤ 2 ∧
      ∀ r ∈ rs, ∃ t, pickClosest (typeGroup opts n t) p = some r := by
  rw [exactForName] at h
  obtain ⟨hl, hm⟩ := pickForTypes_spec opts n p (typesPresent opts n) rs h
  constructor
  · rw [hl]
    exact typesPresent_len opts n
  · intro r hr
    obtain ⟨t, _, hpc⟩ := hm r hr
    exact ⟨t, hpc⟩

theorem exactForName_names (opts : List ResolvedRecord) (n : String) (p : ℚ)
    (rs : List ResolvedRecord) (h : exactForName opts n p = some rs) :
    ∀ r ∈ rs, r.name = n := by
  intro r hr
  obtain ⟨_, hm⟩ := exactForName_spec opts n p rs h
  obtain ⟨t, hpc⟩ := hm r hr
  exact (typeGroup_mem opts n t r (pickClosest_spec _ p r hpc).1).2.1

theorem countName_append (l1 l2 : List ResolvedRecord) (n : String) :
    countName (l1 ++ l2) n = countName l1 n + countName l2 n := by
  simp [countName, List.filter_append]

theorem countName_eq_zero (l : List ResolvedRecord) (n : String)
    (h : ∀ r ∈ l, r.name ≠ n) : countName l n = 0 := by
  rw [countName, List.filter_eq_nil_iff.mpr]
  · rfl
  · intro r hr
    simpa using h r hr

theorem countName_le_len (l : List ResolvedRecord) (n : String) :
    countName l n ≤ l.length :=
  List.length_filter_le _ l

theorem exactRows_mem (opts : List ResolvedRecord) :
    ∀ (qs : List (String × ℚ)) (out : List ResolvedRecord),
    exactRows opts qs = some out →
    ∀ r ∈ out, ∃ q ∈ qs, ∃ rs, exactForName opts q.1 q.2 = some rs ∧ r ∈ rs := by
  intro qs
  induction qs with
  | nil =>
    intro out h r hr
    rw [exactRows] at h
    have hout : out = [] := by simpa using h.symm
    subst hout
    simp at hr
  | cons q qs2 ih =>
    intro out h r hr
    rw [exactRows] at h
    cases hq : exactForName opts q.1 q.2 with
    | none => rw [hq] at h; exact absurd h (by simp)
    | some rs =>
      rw [hq] at h
      cases hrest : exactRows opts qs2 with
      | none => rw [hrest] at h; exact absurd h (by simp)
      | some rest =>
        rw [hrest] at h
        have hout : out = rs ++ rest := by simpa using h.symm
        subst hout
        rcases List.mem_append.mp hr with hr1 | hr2
        · exact ⟨q, List.mem_cons_self q qs2, rs, hq, hr1⟩
        · obtain ⟨q2, hq2, rs2, hrs2, hmem⟩ := ih rest hrest r hr2
          exact ⟨q2, List.mem_cons_of_mem q hq2, rs2, hrs2, hmem⟩

theorem exactRows_count (opts : List ResolvedRecord) :
    ∀ (qs : List (String × ℚ)) (out : List ResolvedRecord) (n : String),
    exactRows opts qs = some out →
    (qs.map (fun q => q.1)).Nodup →
    countName out n ≤ 2 ∧ ((∀ q ∈ qs, q.1 ≠ n) → countName out n = 0) := by
  intro qs
  induction qs with
  | nil =>
    intro out n h _
    rw [exactRows] at h
    have hout : out = [] := by simpa using h.symm
    subst hout
    exact ⟨by simp [countName], fun _ => by simp [countName]⟩
  | cons q qs2 ih =>
    intro out n h hnd
    rw [List.map_cons, List.nodup_cons] at hnd
    obtain ⟨hq1, hnd2⟩ := hnd
    rw [exactRows] at h
    cases hq : exactForName opts q.1 q.2 with
    | none => rw [hq] at h; exact absurd h (by simp)
    | some rs =>
      rw [hq] at h
      cases hrest : exactRows opts qs2 with
      | none => rw [hrest] at h; exact absurd h (by simp)
      | some rest =>
        rw [hrest] at h
        have hout : out = rs ++ rest := by simpa using h.symm
        subst hout
        obtain ⟨ihc, ihz⟩ := ih rest n hrest hnd2
        rw [countName_append]
        by_cases hn : q.1 = n
        · subst hn
          have hz : countName rest q.1 = 0 := by
            refine ihz ?_
            intro q2 hq2 hc
            exact hq1 (by rw [← hc]; exact List.mem_map_of_mem (fun w => w.1) hq2)
          rw [hz]
          have hc2 : countName rs q.1 ≤ 2 :=
            le_trans (countName_le_len rs q.1) (exactForName_spec opts q.1 q.2 rs hq).1
          refine ⟨by omega, ?_⟩
          intro hall
          exact absurd rfl (hall q (List.mem_cons_self q qs2))
        · have hz : countName rs n = 0 := by
            refine countName_eq_zero rs n ?_
            intro r hr
            rw [exactForName_names opts q.1 q.2 rs hq r hr]
            exact hn
          rw [hz]
          refine ⟨by omega, ?_⟩
          intro hall
          have := ihz (fun q2 hq2 => hall q2 (List.mem_cons_of_mem q hq2))
          omega

theorem firstOccs_nodup_aux [DecidableEq α] (l : List α) :
    ∀ acc : List α, acc.Nodup →
      (l.foldl (fun acc2 x => if x ∈ acc2 then acc2 else acc2 ++ [x]) acc).Nodup := by
  induction l with
  | nil => intro acc h; exact h
  | cons x rest ih =>
    intro acc h
    rw [List.foldl_cons]
    by_cases hx : x ∈ acc
    · rw [if_pos hx]
      exact ih acc h
    · rw [if_neg hx]
      refine ih (acc ++ [x]) ?_
      simp [List.nodup_append, h, hx]

theorem firstOccs_nodup [DecidableEq α] (l : List α) : (firstOccs l).Nodup :=
  firstOccs_nodup_aux l [] List.nodup_nil

theorem sortedNames_nodup (opts : List ResolvedRecord) : (sortedNames opts).Nodup := by
  rw [sortedNames]
  exact ((sortAsc_perm _).nodup_iff).mpr (firstOccs_nodup _)

theorem namesWithPrice_mem (fp : List (String × ℚ)) (names : List String)
    (q : String × ℚ)
    (h : q ∈ names.filterMap (fun n => (lookupPrice fp n).map (fun p => (n, p)))) :
    q.1 ∈ names ∧ lookupPrice fp q.1 = some q.2 := by
  rw [List.mem_filterMap] at h
  obtain ⟨n0, hn0, hq⟩ := h
  cases hl : lookupPrice fp n0 with
  | none => rw [hl] at hq; exact absurd hq (by simp)
  | some p =>
    rw [hl] at hq
    have hq2 : (n0, p) = q := by simpa using hq
    subst hq2
    exact ⟨hn0, hl⟩

theorem namesWithPrice_keys (fp : List (String × ℚ)) (names : List String) :
    (names.filterMap (fun n => (lookupPrice fp n).map (fun p => (n, p)))).map
        (fun q => q.1)
      = names.filter (fun n => (lookupPrice fp n).isSome) := by
  induction names with
  | nil => rfl
  | cons n0 rest ih =>
    rw [List.filterMap_cons, List.filter_cons]
    cases hl : lookupPrice fp n0 with
    | none => simpa [hl] using ih
    | some p => simpa [hl] using ih

/-- C5: whenever the exact-ATM mode returns a row set, no row belongs to an
underlying without a futures price, every underlying contributes at most two
rows, and each returned row is an options-universe row whose strike minimises
the distance to the futures price among its underlying and option type. -/
theorem atm_exact_mode_row_bounds (db : List ResolvedRecord)
    (futures_data : List (String × ℚ)) (sb : ℚ) (out : List ResolvedRecord)
    (h : get_atm_options_tokens db futures_data sb true = some out) :
    (∀ n, lookupPrice (buildFuturesPrices db futures_data) n = none →
      countName out n = 0) ∧
    (∀ n, countName out n ≤ 2) ∧
    (∀ r ∈ out, r ∈ optionsOf db ∧
      ∃ p, lookupPrice (buildFuturesPrices db futures_data) r.name = some p ∧
        ∀ r2 ∈ optionsOf db, r2.name = r.name →
          optionTypeOf r2.symbol = optionTypeOf r.symbol →
          ∀ s2, r2.strike = some s2 →
            ∃ s, r.strike = some s ∧ |s - p| ≤ |s2 - p|) := by
  rw [get_atm_options_tokens] at h
  by_cases h1 : futures_data.isEmpty
  · rw [if_pos h1] at h
    have hout : out = [] := by simpa using h.symm
    subst hout
    exact ⟨fun n _ => by simp [countName], fun n => by simp [countName],
      fun r hr => absurd hr (by simp)⟩
  · rw [if_neg h1] at h
    by_cases h2 : (optionsOf db).isEmpty
    · rw [if_pos h2] at h
      have hout : out = [] := by simpa using h.symm
      subst hout
      exact ⟨fun n _ => by simp [countName], fun n => by simp [countName],
        fun r hr => absurd hr (by simp)⟩
    · rw [if_neg h2] at h
      by_cases h3 : (buildFuturesPrices db futures_data).isEmpty
      · rw [if_pos h3] at h
        have hout : out = [] := by simpa using h.symm
        subst hout
        exact ⟨fun n _ => by simp [countName], fun n => by simp [countName],
          fun r hr => absurd hr (by simp)⟩
      · rw [if_neg h3, if_pos rfl] at h
        have hnd : (((sortedNames (optionsOf db)).filterMap
            (fun n => (lookupPrice (buildFuturesPrices db futures_data) n).map
              (fun p => (n, p)))).map (fun q => q.1)).Nodup := by
          rw [namesWithPrice_keys]
          exact (sortedNames_nodup (optionsOf db)).filter _
        refine ⟨?_, ?_, ?_⟩
        · intro n hn
          refine (exactRows_count (optionsOf db) _ out n h hnd).2 ?_
          intro q hq hq1
          have hmem := namesWithPrice_mem _ _ q hq
          rw [hq1, hn] at hmem
          exact absurd hmem.2 (by simp)
        · intro n
          exact (exactRows_count (optionsOf db) _ out n h hnd).1
        · intro r hr
          obtain ⟨q, hq, rs, hrs, hrmem⟩ := exactRows_mem (optionsOf db) _ out h r hr
          obtain ⟨_, hm⟩ := exactForName_spec (optionsOf db) q.1 q.2 rs hrs
          obtain ⟨t, hpc⟩ := hm r hrmem
          obtain ⟨hrg, hrsome, hbound⟩ := pickClosest_spec _ q.2 r hpc
          obtain ⟨hropts, hrname, hrtype⟩ := typeGroup_mem (optionsOf db) q.1 t r hrg
          have hqp := namesWithPrice_mem _ _ q hq
          refine ⟨hropts, q.2, by rw [hrname]; exact hqp.2, ?_⟩
          intro r2 hr2 hn2 ht2 s2 hs2
          have hr2g : r2 ∈ typeGroup (optionsOf db) q.1 t :=
            typeGroup_mem_of _ _ _ r2 hr2 (by rw [hn2, hrname]) (by rw [ht2, hrtype])
          have hb := hbound r2 hr2g (by rw [hs2]; rfl)
          cases hrs2 : r.strike with
          | none => rw [hrs2] at hrsome; exact absurd hrsome (by simp)
          | some s =>
            refine ⟨s, rfl, ?_⟩
            rw [atmDist, atmDist, hrs2, hs2] at hb
            simpa using hb

/-- C5 witness: the concrete selection returns the call and the put of the
priced underlying and nothing for an unknown underlying. -/
theorem atm_exact_mode_row_bounds_witness :
    countName [demoAtmCE, demoAtmPE] "BAZ" ≤ 2 ∧
      countName [demoAtmCE, demoAtmPE] "ZZZ" = 0 := by
  have h : get_atm_options_tokens demoAtmDb demoAtmFD 1 true
      = some [demoAtmCE, demoAtmPE] := by rfl
  have hmain := atm_exact_mode_row_bounds demoAtmDb demoAtmFD 1 [demoAtmCE, demoAtmPE] h
  exact ⟨hmain.2.1 "BAZ", hmain.1 "ZZZ" (by rfl)⟩
